import Mathlib

/-!
Verification of the tool-calling demo (`tool_call_demo.py`) against its
natural-language specification.

The program text is shallowly embedded over `List Char`:
strings are character lists, regular-expression scans become explicit
left-to-right scanners, `json.loads` becomes a fuel-indexed recursive
descent parser returning `Option`, Python exceptions become `Except`
values, and the two external collaborators (the Jinja prompt renderer
and the completion endpoint) become function parameters of the loop
driver.
-/

namespace ToolDemo

/-! ### Character classes and Python `str.strip` -/

/-- The apostrophe character, built numerically. -/
def apos : Char := Char.ofNat 39

/-- The double-quote character. -/
def dquote : Char := Char.ofNat 34

/-- The backslash character. -/
def backslash : Char := Char.ofNat 92

/-- Left brace character. -/
def lbrace : Char := Char.ofNat 123

/-- Right brace character. -/
def rbrace : Char := Char.ofNat 125

/-- Whitespace as recognised by Python's `str.strip`, `str.isspace` and the
regex class `\s` on `str` inputs: ASCII whitespace, the C1 separators and
the Unicode `White_Space` code points. -/
def isPySpace (c : Char) : Bool :=
  c.toNat = 0x09 || c.toNat = 0x0a || c.toNat = 0x0b || c.toNat = 0x0c ||
  c.toNat = 0x0d || c.toNat = 0x20 ||
  c.toNat = 0x1c || c.toNat = 0x1d || c.toNat = 0x1e || c.toNat = 0x1f ||
  c.toNat = 0x85 || c.toNat = 0xa0 || c.toNat = 0x1680 ||
  (0x2000 ≤ c.toNat && c.toNat ≤ 0x200a) ||
  c.toNat = 0x2028 || c.toNat = 0x2029 || c.toNat = 0x202f ||
  c.toNat = 0x205f || c.toNat = 0x3000

/-- Python `str.strip()`: drop leading and trailing whitespace. -/
def pyStrip (s : List Char) : List Char :=
  ((s.dropWhile isPySpace).reverse.dropWhile isPySpace).reverse

/-! ### Exact token scanning (`re` literal matching) -/

/-- If `tok` is literally a prefix of `s`, return the rest of `s`. -/
def stripTok : List Char → List Char → Option (List Char)
  | [], s => some s
  | _ :: _, [] => none
  | a :: as, b :: bs => if a = b then stripTok as bs else none

/-- Split `s` at the first (leftmost) occurrence of the literal token
`tok`: returns the part before the occurrence and the part after it.
This is the scan a lazy regex such as `TOK(.*?)` performs. -/
def splitOnce (tok : List Char) : List Char → Option (List Char × List Char)
  | [] =>
    match stripTok tok [] with
    | some r => some ([], r)
    | none => none
  | c :: t =>
    match stripTok tok (c :: t) with
    | some r => some ([], r)
    | none => (splitOnce tok t).map (fun pr => (c :: pr.1, pr.2))

/-- Boolean occurrence test for a literal token. -/
def containsTok (tok s : List Char) : Bool :=
  (splitOnce tok s).isSome

theorem stripTok_sound : ∀ {tok s r : List Char}, stripTok tok s = some r → s = tok ++ r
  | [], s, r, h => by
    simp only [stripTok, Option.some.injEq] at h
    simp [h]
  | _ :: _, [], _, h => by simp [stripTok] at h
  | a :: as, b :: bs, r, h => by
    by_cases hab : a = b
    · subst hab
      simp only [stripTok, if_pos rfl] at h
      have := stripTok_sound h
      simp [this]
    · simp [stripTok, hab] at h

theorem stripTok_self (tok r : List Char) : stripTok tok (tok ++ r) = some r := by
  induction tok with
  | nil => rfl
  | cons a as ih => simp [stripTok, ih]

theorem splitOnce_sound {tok : List Char} :
    ∀ {s p r : List Char}, splitOnce tok s = some (p, r) → s = p ++ tok ++ r
  | [], p, r, h => by
    simp only [splitOnce] at h
    cases htok : stripTok tok [] with
    | none => rw [htok] at h; exact absurd h (by simp)
    | some r0 =>
      rw [htok] at h
      simp only [Option.some.injEq, Prod.mk.injEq] at h
      obtain ⟨hp, hr⟩ := h
      subst hp; subst hr
      simpa using stripTok_sound htok
  | c :: t, p, r, h => by
    simp only [splitOnce] at h
    cases htok : stripTok tok (c :: t) with
    | some r0 =>
      rw [htok] at h
      simp only [Option.some.injEq, Prod.mk.injEq] at h
      obtain ⟨hp, hr⟩ := h
      subst hp; subst hr
      simpa using stripTok_sound htok
    | none =>
      rw [htok] at h
      cases hrec : splitOnce tok t with
      | none => rw [hrec] at h; exact absurd h (by simp)
      | some pr =>
        obtain ⟨p1, r1⟩ := pr
        rw [hrec] at h
        simp only [Option.map, Option.some.injEq, Prod.mk.injEq] at h
        obtain ⟨hp, hr⟩ := h
        have hrec' : t = p1 ++ tok ++ r1 := splitOnce_sound hrec
        subst hr
        rw [← hp]
        simp [hrec']

theorem splitOnce_length_lt {tok s p r : List Char} (htok : tok ≠ [])
    (h : splitOnce tok s = some (p, r)) : r.length < s.length := by
  have hs := splitOnce_sound h
  subst hs
  have : 0 < tok.length := List.length_pos.mpr htok
  simp [List.length_append]
  omega

/-- Matching a token against the text that begins with it succeeds at
position zero. -/
theorem splitOnce_at_tok (a : Char) (as x : List Char) :
    splitOnce (a :: as) ((a :: as) ++ x) = some ([], x) := by
  have h : stripTok (a :: as) (a :: (as ++ x)) = some x := by
    simpa using stripTok_self (a :: as) x
  simp [splitOnce, List.append_eq, h]

/-- First-occurrence split at the literal token `tok`, where `tok` starts
with `<` and the scanned prefix contains no `<`: the occurrence is found
exactly at the boundary. -/
theorem splitOnce_clean_append {tk : List Char} (j x : List Char)
    (hj : '<' ∉ j) :
    splitOnce ('<' :: tk) (j ++ ('<' :: tk) ++ x) = some (j, x) := by
  induction j with
  | nil => simpa using splitOnce_at_tok '<' tk x
  | cons c j' ih =>
    have hc : c ≠ '<' := by
      intro hc; exact hj (by simp [hc])
    have hj' : '<' ∉ j' := fun h => hj (by simp [h])
    have hstrip : stripTok ('<' :: tk) (c :: (j' ++ ('<' :: tk) ++ x)) = none := by
      simp only [stripTok]
      rw [if_neg (fun h => hc h.symm)]
    have hun : splitOnce ('<' :: tk) (c :: (j' ++ ('<' :: tk) ++ x)) =
        (splitOnce ('<' :: tk) (j' ++ ('<' :: tk) ++ x)).map
          (fun pr => (c :: pr.1, pr.2)) := by
      simp only [splitOnce, hstrip]
    have hshape : (c :: j') ++ ('<' :: tk) ++ x = c :: (j' ++ ('<' :: tk) ++ x) := by
      simp
    rw [hshape, hun, ih hj']
    rfl

/-- A `<`-free string contains no occurrence of a token starting with `<`. -/
theorem splitOnce_clean_none {tk : List Char} (j : List Char) (hj : '<' ∉ j) :
    splitOnce ('<' :: tk) j = none := by
  induction j with
  | nil => simp [splitOnce, stripTok]
  | cons c j' ih =>
    have hc : c ≠ '<' := by
      intro hc; exact hj (by simp [hc])
    have hj' : '<' ∉ j' := fun h => hj (by simp [h])
    have hstrip : stripTok ('<' :: tk) (c :: j') = none := by
      simp only [stripTok]
      rw [if_neg (fun h => hc h.symm)]
    simp [splitOnce, hstrip, ih hj']

/-! ### The thinking-token post-processor (`_process_llm_response`) -/

/-- The template's begin-of-thinking marker `<seed:think>`. -/
def thinkBegin : List Char := "<seed:think>".data

/-- The template's end-of-thinking marker `</seed:think>`. -/
def thinkEnd : List Char := "</seed:think>".data

/-- The substitution `pattern.sub("", llm_output)` for the lazy dot-all
pattern `<seed:think>(.*?)</seed:think>`: repeatedly find the first begin
marker, the first end marker after it, drop the whole span, and continue
after it.  When either marker is missing the text is left unchanged. -/
def removeThink (s : List Char) : List Char :=
  match h1 : splitOnce thinkBegin s with
  | none => s
  | some pr =>
    match h2 : splitOnce thinkEnd pr.2 with
    | none => s
    | some pr2 => pr.1 ++ removeThink pr2.2
termination_by s.length
decreasing_by
  have l2 : pr2.2.length < pr.2.length :=
    splitOnce_length_lt (by simp [thinkEnd]) h2
  have l1 : pr.2.length < s.length :=
    splitOnce_length_lt (by simp [thinkBegin]) h1
  omega

theorem removeThink_eq_of_none {s : List Char}
    (h : splitOnce thinkBegin s = none) : removeThink s = s := by
  rw [removeThink.eq_def, h]

theorem removeThink_eq_of_some {s : List Char} {pr pr2 : List Char × List Char}
    (h1 : splitOnce thinkBegin s = some pr)
    (h2 : splitOnce thinkEnd pr.2 = some pr2) :
    removeThink s = pr.1 ++ removeThink pr2.2 := by
  rw [removeThink.eq_def]
  split
  · rename_i heq
    rw [h1] at heq
    exact absurd heq (by simp)
  · rename_i pr' heq
    rw [h1] at heq
    injection heq with heq
    subst heq
    split
    · rename_i heq2
      rw [h2] at heq2
      exact absurd heq2 (by simp)
    · rename_i pr2' heq2
      rw [h2] at heq2
      injection heq2 with heq2
      subst heq2
      rfl

/-! ### The blank-line collapse `re.sub(r'\n\s*\n', '\n\n', s)` -/

/-- The backtracking tail of a greedy match of `\n\s*\n` whose leading
newline has just been consumed: look down the maximal whitespace run at
the head of `t` for the last newline in it, and return the text after
that newline.  `none` means the run contains no newline, i.e. the regex
does not match here. -/
def afterLastNl : List Char → Option (List Char)
  | [] => none
  | c :: rest =>
    if isPySpace c then
      match afterLastNl rest with
      | some r => some r
      | none => if c = '\n' then some rest else none
    else none

theorem afterLastNl_suffix :
    ∀ {t r : List Char}, afterLastNl t = some r → ∃ p, t = p ++ r := by
  intro t
  induction t with
  | nil => intro r h; simp [afterLastNl] at h
  | cons c rest ih =>
    intro r h
    simp only [afterLastNl] at h
    by_cases hsp : isPySpace c
    · rw [if_pos hsp] at h
      cases hrec : afterLastNl rest with
      | some r0 =>
        rw [hrec] at h
        simp only [Option.some.injEq] at h
        subst h
        obtain ⟨p, hp⟩ := ih hrec
        exact ⟨c :: p, by simp [hp]⟩
      | none =>
        rw [hrec] at h
        by_cases hnl : c = '\n'
        · rw [if_pos hnl] at h
          simp only [Option.some.injEq] at h
          subst h
          exact ⟨[c], rfl⟩
        · rw [if_neg hnl] at h
          exact absurd h (by simp)
    · rw [if_neg hsp] at h
      exact absurd h (by simp)

theorem afterLastNl_length {t r : List Char} (h : afterLastNl t = some r) :
    r.length < t.length := by
  obtain ⟨p, hp⟩ := afterLastNl_suffix h
  subst hp
  have hpne : p ≠ [] := by
    intro hnil
    subst hnil
    simp only [List.nil_append] at h
    cases r with
    | nil => simp [afterLastNl] at h
    | cons c rest =>
      simp only [afterLastNl] at h
      by_cases hsp : isPySpace c
      · rw [if_pos hsp] at h
        cases hrec : afterLastNl rest with
        | some r0 =>
          rw [hrec] at h
          simp only [Option.some.injEq] at h
          have := afterLastNl_suffix hrec
          obtain ⟨p0, hp0⟩ := this
          rw [h] at hp0
          have : rest.length = p0.length + (c :: rest).length := by
            simpa [List.length_append] using congrArg List.length hp0
          simp at this
          omega
        | none =>
          rw [hrec] at h
          by_cases hnl : c = '\n'
          · rw [if_pos hnl] at h
            simp only [Option.some.injEq] at h
            have : rest.length = (c :: rest).length := congrArg List.length h
            simp at this
          · rw [if_neg hnl] at h
            exact absurd h (by simp)
      · rw [if_neg hsp] at h
        exact absurd h (by simp)
  have : 0 < p.length := List.length_pos.mpr hpne
  simp [List.length_append]
  omega

/-- The substitution `re.sub(r'\n\s*\n', '\n\n', s)`: scan left to right;
at each newline try the greedy-with-backtracking match of `\n\s*\n`; on a
match emit exactly one blank line (`\n\n`) and continue after the match,
otherwise copy the character. -/
def collapseBlank : List Char → List Char
  | [] => []
  | c :: t =>
    if c = '\n' then
      match h : afterLastNl t with
      | some r => '\n' :: '\n' :: collapseBlank r
      | none => c :: collapseBlank t
    else c :: collapseBlank t
termination_by s => s.length
decreasing_by
  · have := afterLastNl_length h
    simp
    omega
  · simp
  · simp

/-! ### Python exceptions and the post-processor with its fallback -/

/-- Python exception values that the program can raise and catch; only
the message is observable through `str(e)`. -/
inductive PyExc where
  | valueError (msg : List Char)
  | exception (msg : List Char)
deriving DecidableEq

/-- Body of the `try` block of `_process_llm_response` when thinking
tokens are disabled: remove the `<seed:think>` spans, collapse blank
lines, strip.  All operations are total, so it always succeeds. -/
def thinkStripCore (s : List Char) : Except PyExc (List Char) :=
  Except.ok (pyStrip (collapseBlank (removeThink s)))

/-- The `try ... except` wrapper of `_process_llm_response`: on any
exception from the body, fall back to the original unprocessed text. -/
def processWithFallback (core : List Char → Except PyExc (List Char))
    (s : List Char) : List Char :=
  match core s with
  | Except.ok r => r
  | Except.error _ => s

/-- `LLMToolClient._process_llm_response`: return the raw output
unchanged when `show_thinking_tokens` is set, otherwise strip thinking
spans (with the exception fallback). -/
def processLLMResponse (showThinking : Bool) (s : List Char) : List Char :=
  if showThinking then s else processWithFallback thinkStripCore s

/-! ### Properties of the blank-line collapse -/

theorem collapseBlank_nil : collapseBlank [] = [] := by
  rw [collapseBlank.eq_def]

theorem collapseBlank_cons_ne {c : Char} (t : List Char) (hc : c ≠ '\n') :
    collapseBlank (c :: t) = c :: collapseBlank t := by
  rw [collapseBlank.eq_2, if_neg hc]

theorem collapseBlank_nl_none {t : List Char} (h : afterLastNl t = none) :
    collapseBlank ('\n' :: t) = '\n' :: collapseBlank t := by
  rw [collapseBlank.eq_2, if_pos rfl]
  split
  · rename_i r heq
    rw [h] at heq
    exact absurd heq (by simp)
  · rfl

theorem collapseBlank_nl_some {t r : List Char} (h : afterLastNl t = some r) :
    collapseBlank ('\n' :: t) = '\n' :: '\n' :: collapseBlank r := by
  rw [collapseBlank.eq_2, if_pos rfl]
  split
  · rename_i r' heq
    rw [h] at heq
    injection heq with heq
    subst heq
    rfl
  · rename_i heq
    rw [h] at heq
    exact absurd heq (by simp)

/-- The scanner's head is preserved: a removed span always begins with a
newline, which is also the first output character. -/
theorem collapseBlank_cons_head (c : Char) (t : List Char) :
    ∃ t', collapseBlank (c :: t) = c :: t' := by
  by_cases hc : c = '\n'
  · subst hc
    cases hA : afterLastNl t with
    | none => exact ⟨collapseBlank t, collapseBlank_nl_none hA⟩
    | some r => exact ⟨'\n' :: collapseBlank r, collapseBlank_nl_some hA⟩
  · exact ⟨collapseBlank t, collapseBlank_cons_ne t hc⟩

/-- A newline-free prefix is copied verbatim by the collapse scanner. -/
theorem collapseBlank_nlfree_append (a x : List Char) (h : '\n' ∉ a) :
    collapseBlank (a ++ x) = a ++ collapseBlank x := by
  induction a with
  | nil => simp
  | cons c a' ih =>
    have hc : c ≠ '\n' := by
      intro hc; exact h (by simp [hc])
    have h' : '\n' ∉ a' := fun hm => h (by simp [hm])
    rw [List.cons_append, collapseBlank_cons_ne _ hc, ih h']
    rfl

/-- If nothing is matched at a position, nothing is matched there after
collapsing the tail either: collapsing does not put a newline into the
leading whitespace run. -/
theorem afterLastNl_none_collapse :
    ∀ {t : List Char}, afterLastNl t = none → afterLastNl (collapseBlank t) = none
  | [], _ => by rw [collapseBlank_nil]; rfl
  | c :: t', h => by
    by_cases hsp : isPySpace c
    · simp only [afterLastNl, if_pos hsp] at h
      cases hrec : afterLastNl t' with
      | some r => rw [hrec] at h; exact absurd h (by simp)
      | none =>
        rw [hrec] at h
        by_cases hnl : c = '\n'
        · rw [if_pos hnl] at h; exact absurd h (by simp)
        · rw [collapseBlank_cons_ne _ hnl]
          have ih := afterLastNl_none_collapse hrec
          simp only [afterLastNl, if_pos hsp, ih]
          rw [if_neg hnl]
    · obtain ⟨t2, ht2⟩ := collapseBlank_cons_head c t'
      rw [ht2]
      simp only [afterLastNl]
      rw [if_neg hsp]

/-- After a successful greedy match there is no further newline in the
whitespace run that follows it. -/
theorem afterLastNl_after :
    ∀ {t r : List Char}, afterLastNl t = some r → afterLastNl r = none
  | c :: t', r, h => by
    simp only [afterLastNl] at h
    by_cases hsp : isPySpace c
    · rw [if_pos hsp] at h
      cases hrec : afterLastNl t' with
      | some r0 =>
        rw [hrec] at h
        simp only [Option.some.injEq] at h
        subst h
        exact afterLastNl_after hrec
      | none =>
        rw [hrec] at h
        by_cases hnl : c = '\n'
        · rw [if_pos hnl] at h
          simp only [Option.some.injEq] at h
          subst h
          exact hrec
        · rw [if_neg hnl] at h; exact absurd h (by simp)
    · rw [if_neg hsp] at h; exact absurd h (by simp)

/-- One pass of the blank-line substitution reaches a fixed point: the
collapse is idempotent. -/
theorem collapseBlank_idem :
    ∀ (s : List Char), collapseBlank (collapseBlank s) = collapseBlank s
  | [] => by rw [collapseBlank_nil, collapseBlank_nil]
  | c :: t => by
    by_cases hc : c = '\n'
    · subst hc
      cases hA : afterLastNl t with
      | none =>
        rw [collapseBlank_nl_none hA, collapseBlank_nl_none (afterLastNl_none_collapse hA),
          collapseBlank_idem t]
      | some r =>
        have hAr : afterLastNl r = none := afterLastNl_after hA
        have hAcr : afterLastNl (collapseBlank r) = none := afterLastNl_none_collapse hAr
        have h2 : afterLastNl ('\n' :: collapseBlank r) = some (collapseBlank r) := by
          simp only [afterLastNl, hAcr]
          rw [if_pos (show isPySpace '\n' = true by decide)]
          simp
        have hlt := afterLastNl_length hA
        rw [collapseBlank_nl_some hA, collapseBlank_nl_some h2, collapseBlank_idem r]
    · rw [collapseBlank_cons_ne _ hc, collapseBlank_cons_ne _ hc, collapseBlank_idem t]
termination_by s => s.length
decreasing_by
  · simp
  · have := afterLastNl_length hA
    simp
    omega
  · simp

/-- A successful greedy match decomposes the text at the matched
newline. -/
theorem afterLastNl_decomp :
    ∀ {t r : List Char}, afterLastNl t = some r → ∃ p, t = p ++ '\n' :: r
  | c :: t', r, h => by
    simp only [afterLastNl] at h
    by_cases hsp : isPySpace c
    · rw [if_pos hsp] at h
      cases hrec : afterLastNl t' with
      | some r0 =>
        rw [hrec] at h
        simp only [Option.some.injEq] at h
        subst h
        obtain ⟨p, hp⟩ := afterLastNl_decomp hrec
        exact ⟨c :: p, by simp [hp]⟩
      | none =>
        rw [hrec] at h
        by_cases hnl : c = '\n'
        · rw [if_pos hnl] at h
          simp only [Option.some.injEq] at h
          subst h
          exact ⟨[], by simp [hnl]⟩
        · rw [if_neg hnl] at h; exact absurd h (by simp)
    · rw [if_neg hsp] at h; exact absurd h (by simp)

/-- If the head of `b` is not whitespace (or `b` is empty), the blank-line
pattern does not continue into `b`. -/
theorem afterLastNl_none_of_head (b : List Char)
    (hb : ∀ c, b.head? = some c → isPySpace c = false) :
    afterLastNl b = none := by
  cases b with
  | nil => rfl
  | cons c t =>
    have := hb c rfl
    simp only [afterLastNl]
    rw [if_neg (by simp [this])]

/-- Greedy backtracking finds the explicit final newline of a whitespace
run that is followed by non-whitespace text. -/
theorem afterLastNl_ws_nl :
    ∀ (w b : List Char), (∀ c ∈ w, isPySpace c = true) →
    (∀ c, b.head? = some c → isPySpace c = false) →
    afterLastNl (w ++ '\n' :: b) = some b
  | [], b, _, hb => by
    simp only [List.nil_append, afterLastNl, afterLastNl_none_of_head b hb]
    simp only [show isPySpace '\n' = true by decide]
    simp
  | c :: w', b, hw, hb => by
    have hcw : isPySpace c = true := hw c (by simp)
    have ih := afterLastNl_ws_nl w' b (fun d hd => hw d (by simp [hd])) hb
    simp only [List.cons_append, List.append_eq, afterLastNl, ih]
    rw [if_pos hcw]

/-- A successful match inside a whitespace run followed by
non-whitespace text stays inside the run. -/
theorem afterLastNl_ws_split :
    ∀ {w x r : List Char}, (∀ c ∈ w, isPySpace c = true) →
    (∀ c, x.head? = some c → isPySpace c = false) →
    afterLastNl (w ++ x) = some r →
    ∃ w2, (∀ c ∈ w2, isPySpace c = true) ∧ r = w2 ++ x ∧ w2.length < w.length := by
  intro w
  induction w with
  | nil =>
    intro x r hw hx h
    rw [List.nil_append, afterLastNl_none_of_head x hx] at h
    exact absurd h (by simp)
  | cons c w' ih =>
    intro x r hw hx h
    have hcw : isPySpace c = true := hw c (by simp)
    simp only [List.cons_append, List.append_eq, afterLastNl, if_pos hcw] at h
    cases hrec : afterLastNl (w' ++ x) with
    | some r0 =>
      rw [hrec] at h
      simp only [Option.some.injEq] at h
      subst h
      obtain ⟨w2, hw2, hr, hlt⟩ := ih (fun d hd => hw d (by simp [hd])) hx hrec
      exact ⟨w2, hw2, hr, by simp; omega⟩
    | none =>
      rw [hrec] at h
      by_cases hnl : c = '\n'
      · rw [if_pos hnl] at h
        simp only [Option.some.injEq] at h
        subst h
        exact ⟨w', fun d hd => hw d (by simp [hd]), rfl, by simp⟩
      · rw [if_neg hnl] at h; exact absurd h (by simp)

/-- The collapse never lengthens the text. -/
theorem collapseBlank_length_le : ∀ (s : List Char), (collapseBlank s).length ≤ s.length
  | [] => by rw [collapseBlank_nil]
  | c :: t => by
    by_cases hc : c = '\n'
    · subst hc
      cases hA : afterLastNl t with
      | none =>
        rw [collapseBlank_nl_none hA]
        have := collapseBlank_length_le t
        simp
        omega
      | some r =>
        rw [collapseBlank_nl_some hA]
        have h1 := collapseBlank_length_le r
        obtain ⟨p, hp⟩ := afterLastNl_decomp hA
        have : t.length = p.length + 1 + r.length := by
          simp [hp, List.length_append]
          omega
        simp
        omega
    · rw [collapseBlank_cons_ne _ hc]
      have := collapseBlank_length_le t
      simp
      omega
termination_by s => s.length
decreasing_by
  · simp
  · have := afterLastNl_length hA
    simp
    omega
  · simp

/-- Collapsing a text with an all-whitespace prefix in front of a
non-whitespace-headed remainder: the scanner turns the prefix into some
all-whitespace text and then proceeds on the remainder. -/
theorem collapseBlank_ws_append :
    ∀ (w x : List Char), (∀ c ∈ w, isPySpace c = true) →
    (∀ c, x.head? = some c → isPySpace c = false) →
    ∃ cw, (∀ c ∈ cw, isPySpace c = true) ∧
      collapseBlank (w ++ x) = cw ++ collapseBlank x
  | [], x, _, _ => ⟨[], by simp, by simp⟩
  | c :: w', x, hw, hx => by
    have hcw : isPySpace c = true := hw c (by simp)
    have hw' : ∀ d ∈ w', isPySpace d = true := fun d hd => hw d (by simp [hd])
    by_cases hc : c = '\n'
    · subst hc
      cases hA : afterLastNl (w' ++ x) with
      | none =>
        rw [List.cons_append, collapseBlank_nl_none hA]
        obtain ⟨cw, hcw2, heq⟩ := collapseBlank_ws_append w' x hw' hx
        refine ⟨'\n' :: cw, ?_, by simp [heq]⟩
        intro d hd
        rcases List.mem_cons.mp hd with h | h
        · subst h; decide
        · exact hcw2 d h
      | some r =>
        obtain ⟨w2, hw2, hr, hlt⟩ := afterLastNl_ws_split hw' hx hA
        subst hr
        rw [List.cons_append, collapseBlank_nl_some hA]
        obtain ⟨cw, hcw2, heq⟩ := collapseBlank_ws_append w2 x hw2 hx
        refine ⟨'\n' :: '\n' :: cw, ?_, by simp [heq]⟩
        intro d hd
        rcases List.mem_cons.mp hd with h | h
        · subst h; decide
        rcases List.mem_cons.mp h with h2 | h2
        · subst h2; decide
        · exact hcw2 d h2
    · rw [List.cons_append, collapseBlank_cons_ne _ hc]
      obtain ⟨cw, hcw2, heq⟩ := collapseBlank_ws_append w' x hw' hx
      refine ⟨c :: cw, ?_, by simp [heq]⟩
      intro d hd
      rcases List.mem_cons.mp hd with h | h
      · subst h; exact hcw
      · exact hcw2 d h
termination_by w _ _ _ => w.length
decreasing_by
  · simp
  · simp
    omega
  · simp

/-- No trailing whitespace: the last character, when there is one, is not
whitespace.  Vacuously true for the empty text. -/
def lastNotWs (v : List Char) : Prop :=
  ∀ c, v.getLast? = some c → isPySpace c = false

theorem lastNotWs_of_cons {c : Char} {v : List Char} (hv : v ≠ [])
    (h : lastNotWs (c :: v)) : lastNotWs v := by
  intro d hd
  apply h d
  have : (c :: v).getLast? = ([c] ++ v).getLast? := by simp
  rw [this, List.getLast?_append, hd]
  rfl

theorem afterLastNl_cons_ws {c : Char} (t : List Char) (hsp : isPySpace c = true) :
    afterLastNl (c :: t) =
      (match afterLastNl t with
       | some r => some r
       | none => if c = '\n' then some t else none) := by
  simp only [afterLastNl, if_pos hsp]

theorem afterLastNl_cons_not_ws {c : Char} (t : List Char)
    (hsp : isPySpace c = false) : afterLastNl (c :: t) = none := by
  simp only [afterLastNl]
  rw [if_neg (by simp [hsp])]

/-- Scanning for the blank-line pattern in `v ++ w` where `v` ends in a
non-whitespace character: the whitespace run inspected stays inside `v`. -/
theorem afterLastNl_append_lastNotWs :
    ∀ (v w : List Char), v ≠ [] → lastNotWs v →
      afterLastNl (v ++ w) = (afterLastNl v).map (fun r => r ++ w)
  | [], _, hne, _ => absurd rfl hne
  | [c], w, _, hv => by
    have hc : isPySpace c = false := hv c rfl
    simp only [List.cons_append, List.nil_append, afterLastNl]
    rw [if_neg (by simp [hc]), if_neg (by simp [hc])]
    rfl
  | c :: c2 :: v', w, _, hv => by
    have hv2 : lastNotWs (c2 :: v') := lastNotWs_of_cons (by simp) hv
    have ih := afterLastNl_append_lastNotWs (c2 :: v') w (by simp) hv2
    by_cases hsp : isPySpace c
    · rw [List.cons_append, afterLastNl_cons_ws _ hsp, afterLastNl_cons_ws _ hsp, ih]
      cases hA : afterLastNl (c2 :: v') with
      | some r => simp [Option.map]
      | none =>
        simp only [Option.map]
        by_cases hnl : c = '\n'
        · rw [if_pos hnl, if_pos hnl]
        · rw [if_neg hnl, if_neg hnl]
    · rw [List.cons_append, afterLastNl_cons_not_ws _ (by simpa using hsp),
        afterLastNl_cons_not_ws _ (by simpa using hsp)]
      rfl

/-- The collapse distributes over an append at a non-whitespace
boundary: matches never straddle the boundary. -/
theorem collapseBlank_append_split :
    ∀ (v w : List Char), lastNotWs v →
      collapseBlank (v ++ w) = collapseBlank v ++ collapseBlank w
  | [], w, _ => by simp [collapseBlank_nil]
  | c :: v', w, hv => by
    by_cases hc : c = '\n'
    · subst hc
      have hv'ne : v' ≠ [] := by
        intro h
        subst h
        have := hv '\n' rfl
        exact absurd this (by decide)
      have hv' : lastNotWs v' := lastNotWs_of_cons hv'ne hv
      have hA := afterLastNl_append_lastNotWs v' w hv'ne hv'
      cases hAv : afterLastNl v' with
      | none =>
        rw [hAv] at hA
        simp only [Option.map] at hA
        rw [List.cons_append, collapseBlank_nl_none hA, collapseBlank_nl_none hAv,
          collapseBlank_append_split v' w hv']
        rfl
      | some r =>
        rw [hAv] at hA
        simp only [Option.map] at hA
        have hrne : r ≠ [] := by
          intro h
          subst h
          obtain ⟨p, hp⟩ := afterLastNl_decomp hAv
          have : v'.getLast? = some '\n' := by
            rw [hp, List.getLast?_append]
            rfl
          have h2 := hv' '\n' this
          exact absurd h2 (by decide)
        have hrlast : lastNotWs r := by
          intro d hd
          apply hv' d
          obtain ⟨p, hp⟩ := afterLastNl_decomp hAv
          rw [hp, List.getLast?_append, List.getLast?_cons, hd]
          rfl
        rw [List.cons_append, collapseBlank_nl_some hA, collapseBlank_nl_some hAv,
          collapseBlank_append_split r w hrlast]
        rfl
    · have hv' : lastNotWs v' := by
        cases hne : v' with
        | nil => intro d hd; simp [hne] at hd
        | cons a t =>
          rw [← hne]
          exact lastNotWs_of_cons (by simp [hne]) hv
      rw [List.cons_append, collapseBlank_cons_ne _ hc, collapseBlank_cons_ne _ hc,
        collapseBlank_append_split v' w hv']
      rfl
termination_by v _ _ => v.length
decreasing_by
  · simp
  · have := afterLastNl_length hAv
    simp
    omega
  · simp

/-! ### `str.strip` and its interaction with the collapse -/

theorem head?_dropWhile_not (p : Char → Bool) :
    ∀ (l : List Char) (c : Char), (l.dropWhile p).head? = some c → p c = false
  | [], c, h => by simp at h
  | a :: t, c, h => by
    by_cases ha : p a
    · rw [List.dropWhile_cons_of_pos ha] at h
      exact head?_dropWhile_not p t c h
    · rw [List.dropWhile_cons_of_neg ha] at h
      simp only [List.head?_cons, Option.some.injEq] at h
      subst h
      simpa using ha

theorem dropWhile_of_head_not (p : Char → Bool) (l : List Char)
    (h : ∀ c, l.head? = some c → p c = false) : l.dropWhile p = l := by
  cases l with
  | nil => rfl
  | cons a t =>
    have := h a rfl
    rw [List.dropWhile_cons_of_neg (by simp [this])]

theorem dropWhile_ws_all_append (p : Char → Bool) :
    ∀ (w v : List Char), (∀ c ∈ w, p c = true) →
      (w ++ v).dropWhile p = v.dropWhile p
  | [], v, _ => by simp
  | c :: w', v, hw => by
    rw [List.cons_append, List.dropWhile_cons_of_pos (hw c (by simp))]
    exact dropWhile_ws_all_append p w' v (fun d hd => hw d (by simp [hd]))

/-- Decomposition used for right stripping. -/
theorem rstrip_decomp (u : List Char) :
    u = (u.reverse.dropWhile isPySpace).reverse ++ (u.reverse.takeWhile isPySpace).reverse := by
  conv_lhs => rw [← List.reverse_reverse u,
    ← @List.takeWhile_append_dropWhile Char isPySpace u.reverse]
  rw [List.reverse_append]

/-- A fixed point of the collapse stays a fixed point after dropping
leading whitespace. -/
theorem collapseBlank_fix_lstrip {u : List Char} (h : collapseBlank u = u) :
    collapseBlank (u.dropWhile isPySpace) = u.dropWhile isPySpace := by
  have hu : u.takeWhile isPySpace ++ u.dropWhile isPySpace = u :=
    List.takeWhile_append_dropWhile isPySpace u
  have hw : ∀ c ∈ u.takeWhile isPySpace, isPySpace c = true :=
    fun c hc => List.mem_takeWhile_imp hc
  have hv : ∀ c, (u.dropWhile isPySpace).head? = some c → isPySpace c = false :=
    head?_dropWhile_not isPySpace u
  obtain ⟨cw, hcw, heq⟩ :=
    collapseBlank_ws_append (u.takeWhile isPySpace) (u.dropWhile isPySpace) hw hv
  rw [hu, h] at heq
  have hdrop := congrArg (List.dropWhile isPySpace) heq
  rw [← hu] at hdrop
  rw [dropWhile_ws_all_append _ _ _ hw, dropWhile_ws_all_append _ _ _ hcw,
    dropWhile_of_head_not _ _ hv] at hdrop
  have hcv : ∀ c, (collapseBlank (u.dropWhile isPySpace)).head? = some c →
      isPySpace c = false := by
    intro c hc
    cases hd : u.dropWhile isPySpace with
    | nil => rw [hd, collapseBlank_nil] at hc; simp at hc
    | cons a t =>
      obtain ⟨t', ht'⟩ := collapseBlank_cons_head a t
      rw [hd, ht'] at hc
      simp only [List.head?_cons, Option.some.injEq] at hc
      subst hc
      exact hv _ (by rw [hd]; rfl)
  rw [dropWhile_of_head_not _ _ hcv] at hdrop
  exact hdrop.symm

/-- A fixed point of the collapse stays a fixed point after dropping
trailing whitespace. -/
theorem collapseBlank_fix_rstrip {u : List Char} (h : collapseBlank u = u) :
    collapseBlank ((u.reverse.dropWhile isPySpace).reverse) =
      (u.reverse.dropWhile isPySpace).reverse := by
  set v := (u.reverse.dropWhile isPySpace).reverse with hvdef
  set w := (u.reverse.takeWhile isPySpace).reverse with hwdef
  have hu : u = v ++ w := rstrip_decomp u
  have hvlast : lastNotWs v := by
    intro c hc
    rw [hvdef, List.getLast?_reverse] at hc
    exact head?_dropWhile_not isPySpace u.reverse c hc
  have hsplit := collapseBlank_append_split v w hvlast
  rw [← hu, h, hu] at hsplit
  have hlv := collapseBlank_length_le v
  have hlw := collapseBlank_length_le w
  have hlen : v.length = (collapseBlank v).length := by
    have := congrArg List.length hsplit
    simp only [List.length_append] at this
    omega
  exact ((List.append_inj hsplit hlen).1).symm

/-- The head of the stripped text is not whitespace. -/
theorem pyStrip_head_not (s : List Char) :
    ∀ c, (pyStrip s).head? = some c → isPySpace c = false := by
  intro c hc
  rw [pyStrip] at hc
  cases hy : s.dropWhile isPySpace with
  | nil => rw [hy] at hc; simp at hc
  | cons a t =>
    have ha : isPySpace a = false := head?_dropWhile_not isPySpace s a (by rw [hy]; rfl)
    rw [hy] at hc
    have hrev : (a :: t).reverse = t.reverse ++ [a] := by simp
    rw [hrev, List.dropWhile_append] at hc
    by_cases he : (t.reverse.dropWhile isPySpace).isEmpty
    · rw [if_pos he] at hc
      rw [List.dropWhile_cons_of_neg (by simp [ha])] at hc
      simp only [List.reverse_cons, List.reverse_nil, List.nil_append, List.head?_cons,
        Option.some.injEq] at hc
      subst hc
      exact ha
    · rw [if_neg he] at hc
      rw [List.reverse_append] at hc
      simp only [List.reverse_cons, List.reverse_nil, List.nil_append, List.cons_append,
        List.head?_cons, Option.some.injEq] at hc
      subst hc
      exact ha

/-- The last character of the stripped text is not whitespace. -/
theorem pyStrip_last_not (s : List Char) :
    ∀ c, (pyStrip s).getLast? = some c → isPySpace c = false := by
  intro c hc
  rw [pyStrip, List.getLast?_reverse] at hc
  exact head?_dropWhile_not isPySpace (s.dropWhile isPySpace).reverse c hc

/-- `strip` is idempotent. -/
theorem pyStrip_idem (s : List Char) : pyStrip (pyStrip s) = pyStrip s := by
  have h1 : (pyStrip s).dropWhile isPySpace = pyStrip s :=
    dropWhile_of_head_not _ _ (pyStrip_head_not s)
  have h2 : (pyStrip s).reverse.dropWhile isPySpace = (pyStrip s).reverse := by
    apply dropWhile_of_head_not
    intro c hc
    rw [← List.getLast?_reverse] at hc
    simp only [List.reverse_reverse] at hc
    exact pyStrip_last_not s c hc
  rw [pyStrip, h1, h2, List.reverse_reverse]

/-- `strip` of a fixed point of the collapse is again a fixed point. -/
theorem collapseBlank_fix_pyStrip {u : List Char} (h : collapseBlank u = u) :
    collapseBlank (pyStrip u) = pyStrip u := by
  rw [pyStrip]
  exact collapseBlank_fix_rstrip (collapseBlank_fix_lstrip h)

/-! ### Occurrence tests and their preservation -/

theorem containsTok_cons (tok : List Char) (c : Char) (t : List Char) :
    containsTok tok (c :: t) = ((stripTok tok (c :: t)).isSome || containsTok tok t) := by
  unfold containsTok
  simp only [splitOnce]
  cases stripTok tok (c :: t) with
  | some r => simp
  | none => simp

theorem containsTok_nil_tok (s : List Char) : containsTok [] s = true := by
  unfold containsTok
  cases s with
  | nil => simp [splitOnce, stripTok]
  | cons c t => simp [splitOnce, stripTok]

theorem stripTok_append_isSome {tok m : List Char} (y : List Char)
    (h : (stripTok tok m).isSome = true) : (stripTok tok (m ++ y)).isSome = true := by
  cases hm : stripTok tok m with
  | none => rw [hm] at h; simp at h
  | some r =>
    have := stripTok_sound hm
    subst this
    rw [List.append_assoc, stripTok_self]
    rfl

theorem containsTok_append_right (tok : List Char) :
    ∀ (x r : List Char), containsTok tok r = true → containsTok tok (x ++ r) = true
  | [], r, h => by simpa using h
  | c :: x', r, h => by
    rw [List.cons_append, containsTok_cons]
    have := containsTok_append_right tok x' r h
    simp [this]

theorem containsTok_append_left (tok : List Char) :
    ∀ (m y : List Char), containsTok tok m = true → containsTok tok (m ++ y) = true
  | [], y, h => by
    have : tok = [] := by
      by_contra hne
      obtain ⟨a, as, rfl⟩ : ∃ a as, tok = a :: as := by
        cases tok with
        | nil => exact absurd rfl hne
        | cons a as => exact ⟨a, as, rfl⟩
      simp [containsTok, splitOnce, stripTok] at h
    subst this
    simpa using containsTok_nil_tok y
  | c :: m', y, h => by
    rw [containsTok_cons] at h
    rw [List.cons_append, containsTok_cons]
    rcases Bool.or_eq_true_iff.mp h with hpre | htail
    · have := @stripTok_append_isSome tok (c :: m') y hpre
      rw [List.cons_append] at this
      simp [this]
    · have := containsTok_append_left tok m' y htail
      simp [this]

theorem containsTok_of_infix {tok s m x y : List Char} (hs : s = x ++ m ++ y)
    (h : containsTok tok m = true) : containsTok tok s = true := by
  subst hs
  rw [List.append_assoc]
  exact containsTok_append_right tok x (m ++ y) (containsTok_append_left tok m y h)

/-- A newline-free token that is a prefix of the collapsed text was a
prefix of the original text: the scanner copies the head run it lies
in. -/
theorem stripTok_isSome_collapse {tok : List Char} (hnl : '\n' ∉ tok) :
    ∀ (s : List Char), (stripTok tok (collapseBlank s)).isSome = true →
      (stripTok tok s).isSome = true := by
  intro s
  induction s generalizing tok with
  | nil => rw [collapseBlank_nil]; exact fun h => h
  | cons c t ih =>
    intro h
    cases tok with
    | nil => simp [stripTok]
    | cons a as =>
      have ha : a ≠ '\n' := by
        intro hA; exact hnl (by simp [hA])
      have has : '\n' ∉ as := fun hm => hnl (by simp [hm])
      by_cases hc : c = '\n'
      · subst hc
        exfalso
        cases hA : afterLastNl t with
        | none =>
          rw [collapseBlank_nl_none hA] at h
          simp only [stripTok] at h
          rw [if_neg ha] at h
          simp at h
        | some r =>
          rw [collapseBlank_nl_some hA] at h
          simp only [stripTok] at h
          rw [if_neg ha] at h
          simp at h
      · rw [collapseBlank_cons_ne _ hc] at h
        simp only [stripTok] at h ⊢
        by_cases hac : a = c
        · rw [if_pos hac] at h ⊢
          exact ih has h
        · rw [if_neg hac] at h
          simp at h

/-- A nonempty token without newlines cannot start at a freshly inserted
newline. -/
theorem stripTok_nl_none {a : Char} {as : List Char} (ha : a ≠ '\n') (z : List Char) :
    (stripTok (a :: as) ('\n' :: z)).isSome = false := by
  simp only [stripTok]
  rw [if_neg (by simpa using ha)]
  rfl

/-- Occurrence of a nonempty newline-free token in the collapsed text
implies occurrence in the original text. -/
theorem containsTok_collapse {tok : List Char} (hne : tok ≠ []) (hnl : '\n' ∉ tok) :
    ∀ (s : List Char), containsTok tok (collapseBlank s) = true →
      containsTok tok s = true
  | [], h => by rwa [collapseBlank_nil] at h
  | c :: t, h => by
    obtain ⟨a, as, rfl⟩ : ∃ a as, tok = a :: as := by
      cases tok with
      | nil => exact absurd rfl hne
      | cons a as => exact ⟨a, as, rfl⟩
    have ha : a ≠ '\n' := by
      intro hA; exact hnl (by simp [hA])
    have has : '\n' ∉ as := fun hm => hnl (by simp [hm])
    by_cases hc : c = '\n'
    · subst hc
      cases hA : afterLastNl t with
      | none =>
        rw [collapseBlank_nl_none hA, containsTok_cons] at h
        rcases Bool.or_eq_true_iff.mp h with hpre | htail
        · have := stripTok_isSome_collapse hnl ('\n' :: t)
          rw [collapseBlank_nl_none hA] at this
          have h2 := this (by simpa using hpre)
          rw [containsTok_cons]
          simp [h2]
        · have := containsTok_collapse hne hnl t htail
          rw [containsTok_cons]
          simp [this]
      | some r =>
        rw [collapseBlank_nl_some hA, containsTok_cons] at h
        rcases Bool.or_eq_true_iff.mp h with hpre | htail
        · rw [stripTok_nl_none ha] at hpre
          exact absurd hpre (by simp)
        · rw [containsTok_cons] at htail
          rcases Bool.or_eq_true_iff.mp htail with hpre2 | htail2
          · rw [stripTok_nl_none ha] at hpre2
            exact absurd hpre2 (by simp)
          · have hr := containsTok_collapse hne hnl r htail2
            obtain ⟨p, hp⟩ := afterLastNl_decomp hA
            have ht : containsTok (a :: as) t = true := by
              have hshape : p ++ '\n' :: r = (p ++ ['\n']) ++ r := by simp
              rw [hp, hshape]
              exact containsTok_append_right _ (p ++ ['\n']) r hr
            rw [containsTok_cons]
            simp [ht]
    · rw [collapseBlank_cons_ne _ hc, containsTok_cons] at h
      rcases Bool.or_eq_true_iff.mp h with hpre | htail
      · have := stripTok_isSome_collapse hnl (c :: t)
        rw [collapseBlank_cons_ne _ hc] at this
        have h2 := this (by simpa using hpre)
        rw [containsTok_cons]
        simp [h2]
      · have := containsTok_collapse hne hnl t htail
        rw [containsTok_cons]
        simp [this]
termination_by s => s.length
decreasing_by
  · simp
  · have := afterLastNl_length hA
    simp
    omega
  · simp

/-- `strip` returns an infix of its input. -/
theorem pyStrip_decomp (s : List Char) : ∃ x y, s = x ++ pyStrip s ++ y := by
  refine ⟨s.takeWhile isPySpace,
    ((s.dropWhile isPySpace).reverse.takeWhile isPySpace).reverse, ?_⟩
  conv_lhs => rw [← List.takeWhile_append_dropWhile isPySpace s]
  rw [List.append_assoc]
  congr 1
  exact rstrip_decomp (s.dropWhile isPySpace)

theorem containsTok_pyStrip {tok u : List Char}
    (h : containsTok tok (pyStrip u) = true) : containsTok tok u = true := by
  obtain ⟨x, y, hxy⟩ := pyStrip_decomp u
  exact containsTok_of_infix hxy h

/-! ### Assembled texts with thinking spans -/

/-- A text made of `N` well-formed, non-nested thinking spans: surrounding
pieces `js` (one more than the spans) interleaved with span bodies `ms`,
each body wrapped in the begin/end markers. -/
def assembleThink : List (List Char) → List (List Char) → List Char
  | j :: js', m :: ms' => j ++ thinkBegin ++ m ++ thinkEnd ++ assembleThink js' ms'
  | j :: _, [] => j
  | [], _ => []

theorem containsTok_false_iff_none {tok s : List Char} :
    containsTok tok s = false ↔ splitOnce tok s = none := by
  unfold containsTok
  cases splitOnce tok s with
  | none => simp
  | some pr => simp

/-- The substitution removes exactly the `N` marked spans and keeps the
surrounding pieces in order. -/
theorem removeThink_assemble :
    ∀ (ms js : List (List Char)), js.length = ms.length + 1 →
      (∀ j ∈ js, '<' ∉ j) → (∀ m ∈ ms, '<' ∉ m) →
      removeThink (assembleThink js ms) = js.join
  | [], js, hlen, hj, _ => by
    obtain ⟨j, rfl⟩ : ∃ j, js = [j] := by
      cases js with
      | nil => simp at hlen
      | cons j js' =>
        cases js' with
        | nil => exact ⟨j, rfl⟩
        | cons _ _ => simp at hlen
    show removeThink j = [j].join
    have hB : thinkBegin = '<' :: ("seed:think>".data) := rfl
    have hnone : splitOnce thinkBegin j = none := by
      rw [hB]
      exact splitOnce_clean_none j (hj j (by simp))
    rw [removeThink_eq_of_none hnone]
    simp
  | m :: ms', js, hlen, hj, hm => by
    obtain ⟨j, js', rfl⟩ : ∃ j js', js = j :: js' := by
      cases js with
      | nil => simp at hlen
      | cons j js' => exact ⟨j, js', rfl⟩
    have hB : thinkBegin = '<' :: ("seed:think>".data) := rfl
    have hE : thinkEnd = '<' :: ("/seed:think>".data) := rfl
    have hshape : assembleThink (j :: js') (m :: ms') =
        j ++ thinkBegin ++ ((m ++ thinkEnd ++ assembleThink js' ms')) := by
      show j ++ thinkBegin ++ m ++ thinkEnd ++ assembleThink js' ms' = _
      simp [List.append_assoc]
    have h1 : splitOnce thinkBegin (assembleThink (j :: js') (m :: ms')) =
        some (j, m ++ thinkEnd ++ assembleThink js' ms') := by
      rw [hshape, hB]
      exact splitOnce_clean_append j _ (hj j (by simp))
    have h2 : splitOnce thinkEnd (m ++ thinkEnd ++ assembleThink js' ms') =
        some (m, assembleThink js' ms') := by
      rw [hE]
      exact splitOnce_clean_append m _ (hm m (by simp))
    rw [removeThink_eq_of_some h1 h2]
    have ih := removeThink_assemble ms' js' (by simpa using hlen)
      (fun x hx => hj x (by simp [hx])) (fun x hx => hm x (by simp [hx]))
    rw [ih]
    simp

/-- Collapsing around one blank-line run: a newline, any whitespace
containing the run's newlines, and a final newline collapse to exactly
one blank line. -/
theorem collapseBlank_run (a w b : List Char) (ha : '\n' ∉ a)
    (hw : ∀ c ∈ w, isPySpace c = true)
    (hb : ∀ c, b.head? = some c → isPySpace c = false) :
    collapseBlank (a ++ '\n' :: (w ++ '\n' :: b)) =
      a ++ '\n' :: '\n' :: collapseBlank b := by
  rw [collapseBlank_nlfree_append a _ ha,
    collapseBlank_nl_some (afterLastNl_ws_nl w b hw hb)]

theorem processLLMResponse_false_eq (s : List Char) :
    processLLMResponse false s = pyStrip (collapseBlank (removeThink s)) := rfl

/-- Claim C3: for every text containing N well-formed, non-nested
begin/end thinking-marker pairs (assembled from marker-free surrounding
pieces and span bodies), the post-processor with show_thinking = false
removes exactly those N spans, keeps the surrounding text in its original
order, then collapses blank-line runs and trims the result; and the
collapse turns each newline-whitespace-newline run into exactly one blank
line. -/
theorem c3_postprocessor_removes_spans :
    (∀ (js ms : List (List Char)), js.length = ms.length + 1 →
      (∀ j ∈ js, '<' ∉ j) → (∀ m ∈ ms, '<' ∉ m) →
      processLLMResponse false (assembleThink js ms) =
        pyStrip (collapseBlank (js.join))) ∧
    (∀ (a w b : List Char), '\n' ∉ a → (∀ c ∈ w, isPySpace c = true) →
      (∀ c, b.head? = some c → isPySpace c = false) →
      collapseBlank (a ++ '\n' :: (w ++ '\n' :: b)) =
        a ++ '\n' :: '\n' :: collapseBlank b) := by
  constructor
  · intro js ms hlen hj hm
    rw [processLLMResponse_false_eq, removeThink_assemble ms js hlen hj hm]
  · exact collapseBlank_run

/-- Witness for C3 at a concrete two-piece text with one thinking span,
and a concrete blank-line run. -/
theorem c3_postprocessor_removes_spans_witness :
    processLLMResponse false (assembleThink [("x ".data), (" y".data)] [("hidden".data)]) =
      pyStrip (collapseBlank ([("x ".data), (" y".data)].join)) ∧
    collapseBlank (("a".data) ++ '\n' :: ((' ' :: '\n' :: ' ' :: []) ++ '\n' :: [])) =
      ("a".data) ++ '\n' :: '\n' :: collapseBlank [] :=
  ⟨c3_postprocessor_removes_spans.1 [("x ".data), (" y".data)] [("hidden".data)]
      (by decide) (by decide) (by decide),
    c3_postprocessor_removes_spans.2 ("a".data) (' ' :: '\n' :: ' ' :: []) []
      (by decide) (by decide) (by intro c hc; simp at hc)⟩

/-- Counterexample to claim C4 as stated: the marker-free output
`"a\n\n\nb"` is not returned merely trimmed; the run of blank lines is
collapsed as well. -/
theorem c4_trim_only_counterexample :
    containsTok thinkBegin ("a\n\n\nb".data) = false ∧
    processLLMResponse false ("a\n\n\nb".data) ≠ pyStrip ("a\n\n\nb".data) := by
  constructor
  · decide
  · have h1 : removeThink ("a\n\n\nb".data) = "a\n\n\nb".data :=
      removeThink_eq_of_none (by decide)
    have h2 : collapseBlank ("a\n\n\nb".data) = "a\n\nb".data := by
      show collapseBlank ('a' :: '\n' :: '\n' :: '\n' :: 'b' :: []) = _
      rw [collapseBlank_cons_ne _ (by decide),
        collapseBlank_nl_some
          (show afterLastNl ('\n' :: '\n' :: 'b' :: []) = some ('b' :: []) by decide),
        collapseBlank_cons_ne _ (by decide), collapseBlank_nil]
    rw [processLLMResponse_false_eq, h1, h2]
    decide

/-- Claim C4 (amended): for every marker-free model output, the
post-processor with show_thinking = false returns the output with each
newline-whitespace-newline run collapsed to a single blank line and
trimmed of leading/trailing whitespace, and applying the post-processor
again to its own result returns it unchanged (idempotence). -/
theorem c4_marker_free_collapse_trim_idem (s : List Char)
    (h : containsTok thinkBegin s = false) :
    processLLMResponse false s = pyStrip (collapseBlank s) ∧
    processLLMResponse false (processLLMResponse false s) =
      processLLMResponse false s := by
  have hrm : removeThink s = s :=
    removeThink_eq_of_none (containsTok_false_iff_none.mp h)
  have h1 : processLLMResponse false s = pyStrip (collapseBlank s) := by
    rw [processLLMResponse_false_eq, hrm]
  refine ⟨h1, ?_⟩
  have hBne : thinkBegin ≠ [] := by decide
  have hBnl : '\n' ∉ thinkBegin := by decide
  have hfix : collapseBlank (collapseBlank s) = collapseBlank s := collapseBlank_idem s
  have hrfix : collapseBlank (pyStrip (collapseBlank s)) = pyStrip (collapseBlank s) :=
    collapseBlank_fix_pyStrip hfix
  have hrmarker : containsTok thinkBegin (pyStrip (collapseBlank s)) = false := by
    cases hb : containsTok thinkBegin (pyStrip (collapseBlank s)) with
    | false => rfl
    | true =>
      have h2 := containsTok_collapse hBne hBnl s (containsTok_pyStrip hb)
      rw [h2] at h
      exact absurd h (by simp)
  have hrrm : removeThink (pyStrip (collapseBlank s)) = pyStrip (collapseBlank s) :=
    removeThink_eq_of_none (containsTok_false_iff_none.mp hrmarker)
  rw [h1, processLLMResponse_false_eq, hrrm, hrfix, pyStrip_idem]

/-- Witness for C4 (amended) at the concrete marker-free output
`"  hi\n \nthere  "`. -/
theorem c4_marker_free_collapse_trim_idem_witness :
    processLLMResponse false ("  hi\n \nthere  ".data) =
      pyStrip (collapseBlank ("  hi\n \nthere  ".data)) ∧
    processLLMResponse false (processLLMResponse false ("  hi\n \nthere  ".data)) =
      processLLMResponse false ("  hi\n \nthere  ".data) :=
  c4_marker_free_collapse_trim_idem ("  hi\n \nthere  ".data) (by decide)

/-- Claim C8: if the post-processing body throws for any reason, the
`try/except` wrapper returns the original unprocessed text, so the run
continues; a processing failure never aborts the run. -/
theorem c8_fallback_returns_original (core : List Char → Except PyExc (List Char))
    (s : List Char) (e : PyExc) (h : core s = Except.error e) :
    processWithFallback core s = s := by
  unfold processWithFallback
  rw [h]

/-- Witness for C8 with a body that always throws. -/
theorem c8_fallback_returns_original_witness :
    processWithFallback (fun _ => Except.error (PyExc.exception ("boom".data)))
      ("text".data) = "text".data :=
  c8_fallback_returns_original (fun _ => Except.error (PyExc.exception ("boom".data)))
    ("text".data) (PyExc.exception ("boom".data)) rfl

/-! ### Case-insensitive token scanning (`re.IGNORECASE`) -/

/-- ASCII lower-casing on code points, as `re.IGNORECASE` applies to the
letters of a pattern literal. -/
def lowerCode (n : Nat) : Nat := if 65 ≤ n ∧ n ≤ 90 then n + 32 else n

/-- Case-insensitive character comparison. -/
def ciEq (a b : Char) : Bool := lowerCode a.toNat = lowerCode b.toNat

/-- Case-insensitive version of `stripTok`. -/
def ciStripTok : List Char → List Char → Option (List Char)
  | [], s => some s
  | _ :: _, [] => none
  | a :: as, b :: bs => if ciEq a b then ciStripTok as bs else none

/-- Case-insensitive version of `splitOnce`. -/
def ciSplitOnce (tok : List Char) : List Char → Option (List Char × List Char)
  | [] =>
    match ciStripTok tok [] with
    | some r => some ([], r)
    | none => none
  | c :: t =>
    match ciStripTok tok (c :: t) with
    | some r => some ([], r)
    | none => (ciSplitOnce tok t).map (fun pr => (c :: pr.1, pr.2))

/-- Split at the first occurrence of a single character (the regex
`[^>]+>` boundary: the name runs to the first `>`). -/
def splitFirstChar (ch : Char) : List Char → Option (List Char × List Char)
  | [] => none
  | c :: t =>
    if c = ch then some ([], t)
    else (splitFirstChar ch t).map (fun pr => (c :: pr.1, pr.2))

theorem ciStripTok_length : ∀ {tok s r : List Char},
    ciStripTok tok s = some r → s.length = tok.length + r.length
  | [], s, r, h => by
    simp only [ciStripTok, Option.some.injEq] at h
    simp [h]
  | _ :: _, [], _, h => by simp [ciStripTok] at h
  | a :: as, b :: bs, r, h => by
    by_cases hab : ciEq a b
    · rw [ciStripTok, if_pos hab] at h
      have := ciStripTok_length h
      simp [this]
      omega
    · rw [ciStripTok, if_neg hab] at h
      exact absurd h (by simp)

theorem ciSplitOnce_length : ∀ {tok s p r : List Char},
    ciSplitOnce tok s = some (p, r) → s.length = p.length + tok.length + r.length
  | tok, [], p, r, h => by
    simp only [ciSplitOnce] at h
    cases htok : ciStripTok tok [] with
    | none => rw [htok] at h; exact absurd h (by simp)
    | some r0 =>
      rw [htok] at h
      simp only [Option.some.injEq, Prod.mk.injEq] at h
      obtain ⟨hp, hr⟩ := h
      subst hp; subst hr
      have := ciStripTok_length htok
      simpa using this
  | tok, c :: t, p, r, h => by
    simp only [ciSplitOnce] at h
    cases htok : ciStripTok tok (c :: t) with
    | some r0 =>
      rw [htok] at h
      simp only [Option.some.injEq, Prod.mk.injEq] at h
      obtain ⟨hp, hr⟩ := h
      subst hp; subst hr
      have := ciStripTok_length htok
      simpa using this
    | none =>
      rw [htok] at h
      cases hrec : ciSplitOnce tok t with
      | none => rw [hrec] at h; exact absurd h (by simp)
      | some pr =>
        obtain ⟨p1, r1⟩ := pr
        rw [hrec] at h
        simp only [Option.map, Option.some.injEq, Prod.mk.injEq] at h
        obtain ⟨hp, hr⟩ := h
        have := ciSplitOnce_length hrec
        subst hr
        rw [← hp]
        simp
        omega

theorem splitFirstChar_sound {ch : Char} : ∀ {s p r : List Char},
    splitFirstChar ch s = some (p, r) → s = p ++ ch :: r
  | [], p, r, h => by simp [splitFirstChar] at h
  | c :: t, p, r, h => by
    simp only [splitFirstChar] at h
    by_cases hc : c = ch
    · rw [if_pos hc] at h
      simp only [Option.some.injEq, Prod.mk.injEq] at h
      obtain ⟨hp, hr⟩ := h
      subst hp; subst hr
      simp [hc]
    · rw [if_neg hc] at h
      cases hrec : splitFirstChar ch t with
      | none => rw [hrec] at h; exact absurd h (by simp)
      | some pr =>
        obtain ⟨p1, r1⟩ := pr
        rw [hrec] at h
        simp only [Option.map, Option.some.injEq, Prod.mk.injEq] at h
        obtain ⟨hp, hr⟩ := h
        have := splitFirstChar_sound hrec
        subst hr
        rw [← hp]
        simp [this]

/-! ### Python values and `json.loads` -/

/-- The Python objects that `json.loads` can produce, plus plain strings:
exactly what can end up as an argument value after the parser's
best-effort JSON coercion.  Floats keep their literal text: no claim
depends on float arithmetic. -/
inductive PyValue where
  | pyStr (s : List Char)
  | pyInt (n : Int)
  | pyFloat (lit : List Char)
  | pyBool (b : Bool)
  | pyNone
  | pyList (xs : List PyValue)
  | pyDict (kvs : List (List Char × PyValue))

/-- Python `dict` insertion: an existing key keeps its position and gets
the new value, a new key is appended.  `dict(pairs)` and repeated
assignment both reduce to folding this in. -/
def dictInsert {α : Type} : List (List Char × α) → List Char → α → List (List Char × α)
  | [], k, v => [(k, v)]
  | (k', v') :: t, k, v =>
    if k' = k then (k, v) :: t else (k', v') :: dictInsert t k v

/-- Whitespace skipped by the JSON decoder (only these four). -/
def jsonWsChar (c : Char) : Bool := c = ' ' || c = '\t' || c = '\n' || c = '\r'

def skipJsonWs (s : List Char) : List Char := s.dropWhile jsonWsChar

def isJsonDigit (c : Char) : Bool := '0' ≤ c && c ≤ '9'

def digitVal (c : Char) : Nat := c.toNat - 48

def natOfDigits (ds : List Char) : Nat := ds.foldl (fun acc c => acc * 10 + digitVal c) 0

def hexVal (c : Char) : Option Nat :=
  if '0' ≤ c && c ≤ '9' then some (c.toNat - 48)
  else if 'a' ≤ c && c ≤ 'f' then some (c.toNat - 87)
  else if 'A' ≤ c && c ≤ 'F' then some (c.toNat - 55)
  else none

def isHighSurrogate (n : Nat) : Bool := 0xd800 ≤ n && n ≤ 0xdbff

def isLowSurrogate (n : Nat) : Bool := 0xdc00 ≤ n && n ≤ 0xdfff

def hex4 (a b c d : Nat) : Nat := ((a * 16 + b) * 16 + c) * 16 + d

/-- Body of a JSON string after the opening quote (`py_scanstring`,
strict mode): returns the decoded characters and the rest after the
closing quote.  Unescaped control characters and invalid escapes fail.
A high surrogate escape followed by a low surrogate escape is combined
as Python does; a lone surrogate keeps Python's `chr` behaviour only up
to `Char`'s scalar-value restriction. -/
def parseJStringBody : List Char → Option (List Char × List Char)
  | [] => none
  | c :: t =>
    if c = dquote then some ([], t)
    else if c = backslash then
      match t with
      | [] => none
      | e :: t2 =>
        if e = dquote then (parseJStringBody t2).map (fun pr => (dquote :: pr.1, pr.2))
        else if e = backslash then
          (parseJStringBody t2).map (fun pr => (backslash :: pr.1, pr.2))
        else if e = '/' then (parseJStringBody t2).map (fun pr => ('/' :: pr.1, pr.2))
        else if e = 'b' then
          (parseJStringBody t2).map (fun pr => (Char.ofNat 8 :: pr.1, pr.2))
        else if e = 'f' then
          (parseJStringBody t2).map (fun pr => (Char.ofNat 12 :: pr.1, pr.2))
        else if e = 'n' then (parseJStringBody t2).map (fun pr => ('\n' :: pr.1, pr.2))
        else if e = 'r' then
          (parseJStringBody t2).map (fun pr => (Char.ofNat 13 :: pr.1, pr.2))
        else if e = 't' then (parseJStringBody t2).map (fun pr => ('\t' :: pr.1, pr.2))
        else if e = 'u' then
          match t2 with
          | h1 :: h2 :: h3 :: h4 :: t3 =>
            match hexVal h1, hexVal h2, hexVal h3, hexVal h4 with
            | some a, some b, some c2, some d =>
              if isHighSurrogate (hex4 a b c2 d) then
                match t3 with
                | b1 :: u2 :: g1 :: g2 :: g3 :: g4 :: t4 =>
                  if b1 = backslash && u2 = 'u' then
                    match hexVal g1, hexVal g2, hexVal g3, hexVal g4 with
                    | some a2, some b2, some c3, some d2 =>
                      if isLowSurrogate (hex4 a2 b2 c3 d2) then
                        (parseJStringBody t4).map (fun pr =>
                          (Char.ofNat (0x10000 + (hex4 a b c2 d - 0xd800) * 1024 +
                            (hex4 a2 b2 c3 d2 - 0xdc00)) :: pr.1, pr.2))
                      else
                        (parseJStringBody (b1 :: u2 :: g1 :: g2 :: g3 :: g4 :: t4)).map
                          (fun pr => (Char.ofNat (hex4 a b c2 d) :: pr.1, pr.2))
                    | _, _, _, _ =>
                      (parseJStringBody (b1 :: u2 :: g1 :: g2 :: g3 :: g4 :: t4)).map
                        (fun pr => (Char.ofNat (hex4 a b c2 d) :: pr.1, pr.2))
                  else
                    (parseJStringBody (b1 :: u2 :: g1 :: g2 :: g3 :: g4 :: t4)).map
                      (fun pr => (Char.ofNat (hex4 a b c2 d) :: pr.1, pr.2))
                | t3' =>
                  (parseJStringBody t3').map
                    (fun pr => (Char.ofNat (hex4 a b c2 d) :: pr.1, pr.2))
              else
                (parseJStringBody t3).map
                  (fun pr => (Char.ofNat (hex4 a b c2 d) :: pr.1, pr.2))
            | _, _, _, _ => none
          | _ => none
        else none
    else if c.toNat < 0x20 then none
    else (parseJStringBody t).map (fun pr => (c :: pr.1, pr.2))

/-- The integer part of the JSON number regex `(-?(?:0|[1-9]\d*))`:
a single `0` or a nonzero digit followed by digits. -/
def parseIntPart : List Char → Option (List Char × List Char)
  | [] => none
  | c :: t =>
    if c = '0' then some (['0'], t)
    else if isJsonDigit c then
      some (c :: t.takeWhile isJsonDigit, t.dropWhile isJsonDigit)
    else none

/-- The optional fraction `(\.\d+)?`: not consumed when no digit
follows the dot. -/
def parseFracPart (s : List Char) : List Char × List Char :=
  match s with
  | '.' :: t =>
    match t.takeWhile isJsonDigit with
    | [] => ([], s)
    | ds => ('.' :: ds, t.dropWhile isJsonDigit)
  | _ => ([], s)

/-- The optional exponent `([eE][-+]?\d+)?`: not consumed when no digit
follows. -/
def parseExpPart (s : List Char) : List Char × List Char :=
  match s with
  | c :: t =>
    if c = 'e' || c = 'E' then
      match t with
      | sgn :: t2 =>
        if sgn = '+' || sgn = '-' then
          match t2.takeWhile isJsonDigit with
          | [] => ([], s)
          | ds => (c :: sgn :: ds, t2.dropWhile isJsonDigit)
        else
          match t.takeWhile isJsonDigit with
          | [] => ([], s)
          | ds => (c :: ds, t.dropWhile isJsonDigit)
      | [] => ([], s)
    else ([], s)
  | [] => ([], s)

/-- JSON number scanning (`NUMBER_RE.match`): an integer literal yields a
Python `int`, a fraction or exponent yields a `float` (kept as its
literal). -/
def parseJNumber (s : List Char) : Option (PyValue × List Char) :=
  let sg := match s with
    | '-' :: t => (true, t)
    | _ => (false, s)
  match parseIntPart sg.2 with
  | none => none
  | some (ids, r1) =>
    let fl := parseFracPart r1
    let el := parseExpPart fl.2
    if fl.1 = [] ∧ el.1 = [] then
      some (PyValue.pyInt (if sg.1 then -(natOfDigits ids : Int) else (natOfDigits ids : Int)),
        el.2)
    else
      some (PyValue.pyFloat ((if sg.1 then ['-'] else []) ++ ids ++ fl.1 ++ el.1), el.2)

mutual
/-- One JSON value (`_scan_once`): dispatch on the first character to a
string, object, array, one of the literals `null`/`true`/`false`, a
number, or the Python extensions `NaN`, `Infinity`, `-Infinity`, in the
decoder's order.  The fuel only bounds nesting depth; it is instantiated
generously by `pyJsonLoads`. -/
def parseJValue : Nat → List Char → Option (PyValue × List Char)
  | 0, _ => none
  | Nat.succ fuel, s =>
    match s with
    | [] => none
    | c :: t =>
      if c = dquote then
        (parseJStringBody t).map (fun pr => (PyValue.pyStr pr.1, pr.2))
      else if c = '[' then
        match skipJsonWs t with
        | ']' :: r => some (PyValue.pyList [], r)
        | t1 => (parseJElems fuel t1).map (fun pr => (PyValue.pyList pr.1, pr.2))
      else if c = lbrace then
        match skipJsonWs t with
        | d :: r =>
          if d = rbrace then some (PyValue.pyDict [], r)
          else
            (parseJMembers fuel (d :: r)).map (fun pr =>
              (PyValue.pyDict (pr.1.foldl (fun acc kv => dictInsert acc kv.1 kv.2) []),
                pr.2))
        | [] => none
      else
        match stripTok ("null".data) s with
        | some r => some (PyValue.pyNone, r)
        | none =>
          match stripTok ("true".data) s with
          | some r => some (PyValue.pyBool true, r)
          | none =>
            match stripTok ("false".data) s with
            | some r => some (PyValue.pyBool false, r)
            | none =>
              match parseJNumber s with
              | some pr => some pr
              | none =>
                match stripTok ("NaN".data) s with
                | some r => some (PyValue.pyFloat ("NaN".data), r)
                | none =>
                  match stripTok ("Infinity".data) s with
                  | some r => some (PyValue.pyFloat ("Infinity".data), r)
                  | none =>
                    match stripTok ("-Infinity".data) s with
                    | some r => some (PyValue.pyFloat ("-Infinity".data), r)
                    | none => none

/-- Array elements after `[` (whitespace already skipped): value, then
`]` to finish or `,` to continue. -/
def parseJElems : Nat → List Char → Option (List PyValue × List Char)
  | 0, _ => none
  | Nat.succ fuel, s =>
    match parseJValue fuel s with
    | none => none
    | some (v, r) =>
      match skipJsonWs r with
      | ']' :: r2 => some ([v], r2)
      | ',' :: r2 => (parseJElems fuel (skipJsonWs r2)).map (fun pr => (v :: pr.1, pr.2))
      | _ => none

/-- Object members: a string key, `:`, a value, then `}` to finish or
`,` to continue; anything else fails. -/
def parseJMembers : Nat → List Char → Option (List (List Char × PyValue) × List Char)
  | 0, _ => none
  | Nat.succ fuel, s =>
    match s with
    | c :: t =>
      if c = dquote then
        match parseJStringBody t with
        | none => none
        | some (k, r1) =>
          match skipJsonWs r1 with
          | ':' :: r2 =>
            match parseJValue fuel (skipJsonWs r2) with
            | none => none
            | some (v, r3) =>
              match skipJsonWs r3 with
              | d :: r4 =>
                if d = rbrace then some ([(k, v)], r4)
                else if d = ',' then
                  (parseJMembers fuel (skipJsonWs r4)).map
                    (fun pr => ((k, v) :: pr.1, pr.2))
                else none
              | [] => none
          | _ => none
      else none
    | [] => none
end

/-- `json.loads`: skip whitespace, parse one value, skip whitespace,
require the end of the input (otherwise "Extra data"); `none` models any
raised `JSONDecodeError`. -/
def pyJsonLoads (s : List Char) : Option PyValue :=
  match parseJValue (2 * s.length + 2) (skipJsonWs s) with
  | some (v, r) => if skipJsonWs r = [] then some v else none
  | none => none

/-- The parser's best-effort typed-value recovery for one raw (already
stripped) parameter value: the decoded JSON value on success, the string
itself on failure. -/
def coerceParamValue (v : List Char) : PyValue :=
  match pyJsonLoads v with
  | some j => j
  | none => PyValue.pyStr v

/-! ### The tool-call parser (`ToolExecutor.parse_tool_calls`) -/

/-- A parsed call record `{"function": {"name": ..., "arguments": ...}}`. -/
structure ToolCall where
  name : List Char
  arguments : List (List Char × PyValue)

def funcOpenTok : List Char := "<function=".data

def funcCloseTok : List Char := "</function>".data

def paramOpenTok : List Char := "<parameter=".data

def paramCloseTok : List Char := "</parameter>".data

/-- Try to match `OPEN NAME > BODY CLOSE` at the current position, the
shape of the regex `<tag=(?P<name>[^>]+)>(?P<body>.*?)</tag>` with
`re.DOTALL | re.IGNORECASE`: the case-insensitive open literal, a
nonempty name running to the first `>`, and a lazy body running to the
first case-insensitive close literal. -/
def matchTagAt (openTok closeTok s : List Char) :
    Option (List Char × List Char × List Char) :=
  match ciStripTok openTok s with
  | none => none
  | some r1 =>
    match splitFirstChar '>' r1 with
    | none => none
    | some (nm, r2) =>
      if nm = [] then none
      else
        match ciSplitOnce closeTok r2 with
        | none => none
        | some (body, rest) => some (nm, body, rest)

theorem matchTagAt_length {openTok closeTok s : List Char}
    {res : List Char × List Char × List Char}
    (h : matchTagAt openTok closeTok s = some res) :
    res.2.2.length < s.length := by
  unfold matchTagAt at h
  split at h
  · exact absurd h (by simp)
  · rename_i r1 h1
    split at h
    · exact absurd h (by simp)
    · rename_i nm r2 h2
      split at h
      · exact absurd h (by simp)
      · rename_i hnm
        split at h
        · exact absurd h (by simp)
        · rename_i body rest h3
          simp only [Option.some.injEq] at h
          subst h
          have l1 := ciStripTok_length h1
          have l2 : r1.length = nm.length + 1 + r2.length := by
            have := splitFirstChar_sound h2
            subst this
            simp [List.length_append]
            omega
          have l3 := ciSplitOnce_length h3
          simp only
          omega

/-- `finditer` over the whole text: try a match at every position, left
to right; on a match, emit `(name, body)` and resume after the match
(non-overlapping); otherwise advance one character. -/
def findTagBlocks (openTok closeTok : List Char) : List Char → List (List Char × List Char)
  | [] => []
  | c :: t =>
    match hm : matchTagAt openTok closeTok (c :: t) with
    | some res => (res.1, res.2.1) :: findTagBlocks openTok closeTok res.2.2
    | none => findTagBlocks openTok closeTok t
termination_by s => s.length
decreasing_by
  · have := matchTagAt_length hm
    omega
  · simp

/-- Build the arguments mapping from one function block's raw body: strip
it, scan it for parameter blocks when nonempty, strip each name and
value, coerce each value, and assign into the dict in order (last write
wins). -/
def buildArgs (bodyRaw : List Char) : List (List Char × PyValue) :=
  let bt := pyStrip bodyRaw
  if bt = [] then []
  else
    (findTagBlocks paramOpenTok paramCloseTok bt).foldl
      (fun d pr => dictInsert d (pyStrip pr.1) (coerceParamValue (pyStrip pr.2))) []

/-- `ToolExecutor.parse_tool_calls`: scan the output for function blocks
and turn each one into a `ToolCall` with a stripped name and its parsed
arguments. -/
def parseToolCalls (s : List Char) : List ToolCall :=
  (findTagBlocks funcOpenTok funcCloseTok s).map
    (fun pr => { name := pyStrip pr.1, arguments := buildArgs pr.2 })

/-! ### Tool implementations and the dispatcher -/

def timeToolName : List Char := "get_current_local_time".data

/-- `ToolExecutor.get_current_local_time` formats `datetime.now()` with
`strftime`.  The clock and the formatting are outside the embedded
program; the already-formatted timestamp string is a parameter of the
run. -/
def getCurrentLocalTime (nowFormatted : List Char) : List Char := nowFormatted

/-- The message of the `ValueError` raised for an unregistered name:
`Unknown function '<name>'`. -/
def unknownFunctionMsg (name : List Char) : List Char :=
  "Unknown function ".data ++ apos :: (name ++ [apos])

/-- `str(e)` for the modelled exceptions. -/
def pyExcMsg : PyExc → List Char
  | PyExc.valueError m => m
  | PyExc.exception m => m

/-- `ToolExecutor.execute_tool_call`: dispatch on the function name; the
single registered tool returns the timestamp, any other name raises
`ValueError(f"Unknown function '{func_name}'")`. -/
def executeToolCall (nowFormatted : List Char) (tc : ToolCall) : Except PyExc (List Char) :=
  if tc.name = timeToolName then Except.ok (getCurrentLocalTime nowFormatted)
  else Except.error (PyExc.valueError (unknownFunctionMsg tc.name))

/-! ### Messages and the loop driver (`run_tool_calling_demo`) -/

/-- A conversation message or tool-result record: role, content, and the
optional `tool_call_id` key (present on tool results, absent on the
messages appended to the conversation). -/
structure Msg where
  role : List Char
  content : List Char
  tool_call_id : Option (List Char)
deriving DecidableEq

/-- The demo's fixed user query. -/
def userQuery : List Char :=
  "What".data ++ apos :: "s the current local time right now?".data

def userMsg : Msg := ⟨"user".data, userQuery, none⟩

/-- The three characters in front of `ERROR` in the source's error
f-string (the source file stores a mojibake of a cross mark), followed by
a space. -/
def errPrefix : List Char :=
  [Char.ofNat 0x201a, Char.ofNat 0xf9, Char.ofNat 0xe5, ' ']

/-- The error text placed in a ToolResult's content:
`<prefix>ERROR in tool '<name>': <message>`. -/
def errorContent (name msg : List Char) : List Char :=
  errPrefix ++ "ERROR in tool ".data ++ apos :: (name ++ apos :: (": ".data ++ msg))

/-- `f"call_{idx}"`. -/
def callId (idx : Nat) : List Char := "call_".data ++ Nat.toDigits 10 idx

/-- One iteration of the driver's dispatch loop: execute the call; on
success record the result, on an exception record the error text; either
way produce exactly one ToolResult with role `tool` and a
`tool_call_id`. -/
def resultFor (nowFormatted : List Char) (idx : Nat) (tc : ToolCall) : Msg :=
  match executeToolCall nowFormatted tc with
  | Except.ok r => ⟨"tool".data, r, some (callId idx)⟩
  | Except.error e => ⟨"tool".data, errorContent tc.name (pyExcMsg e), some (callId idx)⟩

/-- The driver's `for idx, tc in enumerate(tool_calls)` loop. -/
def mkToolResults (nowFormatted : List Char) : Nat → List ToolCall → List Msg
  | _, [] => []
  | idx, tc :: rest => resultFor nowFormatted idx tc :: mkToolResults nowFormatted (idx + 1) rest

/-- What one demo run produces and observes: the final conversation, the
accumulated tool results, the final answer text, and how many model
round-trips were made. -/
structure DemoRun where
  conversation : List Msg
  toolResults : List Msg
  finalAnswer : List Char
  modelCalls : Nat
deriving DecidableEq

/-- `LLMToolClient.call_llm`: send the prompt to the endpoint, strip the
choice text, and post-process it.  The completion endpoint is an
external collaborator, abstracted as a function from prompt text to
response text. -/
def callLLM (endpoint : List Char → List Char) (showThinking : Bool)
    (prompt : List Char) : List Char :=
  processLLMResponse showThinking (pyStrip (endpoint prompt))

/-- `run_tool_calling_demo`: render the initial conversation, call the
model, parse tool calls from the processed first response; with no calls
the run ends after one round-trip and the processed first response is
the answer; otherwise dispatch each call in parse order, append one
`tool` message (role and content only) per result to the conversation,
re-render, call the model a second time, and finish.  The renderer
(Jinja template) is abstracted as a function from conversations to
prompt text. -/
def runDemo (render : List Msg → List Char) (endpoint : List Char → List Char)
    (showThinking : Bool) (nowFormatted : List Char) : DemoRun :=
  let conv0 := [userMsg]
  let out1 := callLLM endpoint showThinking (render conv0)
  let calls := parseToolCalls out1
  if calls.isEmpty then
    ⟨conv0, [], out1, 1⟩
  else
    let results := mkToolResults nowFormatted 0 calls
    let conv1 := conv0 ++ results.map (fun r => ⟨"tool".data, r.content, none⟩)
    let out2 := callLLM endpoint showThinking (render conv1)
    ⟨conv1, results, out2, 2⟩

/-! ### Unfolding lemmas for the scanners -/

theorem removeThink_eq_of_noEnd {s : List Char} {pr : List Char × List Char}
    (h1 : splitOnce thinkBegin s = some pr)
    (h2 : splitOnce thinkEnd pr.2 = none) : removeThink s = s := by
  rw [removeThink.eq_def]
  split
  · rfl
  · rename_i pr' heq
    rw [h1] at heq
    injection heq with heq
    subst heq
    split
    · rfl
    · rename_i pr2' heq2
      rw [h2] at heq2
      exact absurd heq2 (by simp)

theorem findTagBlocks_nil (o cl : List Char) : findTagBlocks o cl [] = [] := by
  rw [findTagBlocks.eq_1]

theorem findTagBlocks_cons_some {o cl : List Char} {c : Char} {t : List Char}
    {res : List Char × List Char × List Char}
    (h : matchTagAt o cl (c :: t) = some res) :
    findTagBlocks o cl (c :: t) = (res.1, res.2.1) :: findTagBlocks o cl res.2.2 := by
  rw [findTagBlocks.eq_2]
  split
  · rename_i res' heq
    rw [h] at heq
    injection heq with heq
    subst heq
    rfl
  · rename_i heq
    rw [h] at heq
    exact absurd heq (by simp)

theorem findTagBlocks_cons_none {o cl : List Char} {c : Char} {t : List Char}
    (h : matchTagAt o cl (c :: t) = none) :
    findTagBlocks o cl (c :: t) = findTagBlocks o cl t := by
  rw [findTagBlocks.eq_2]
  split
  · rename_i res' heq
    rw [h] at heq
    exact absurd heq (by simp)
  · rfl

/-! ### Fuel-indexed computable twins of the well-founded scanners -/

/-- Fuel twin of `removeThink` (structural, hence evaluable by the
kernel); agrees with it whenever the fuel covers the input length. -/
def removeThinkF : Nat → List Char → List Char
  | 0, s => s
  | Nat.succ fuel, s =>
    match splitOnce thinkBegin s with
    | none => s
    | some pr =>
      match splitOnce thinkEnd pr.2 with
      | none => s
      | some pr2 => pr.1 ++ removeThinkF fuel pr2.2

theorem removeThinkF_eq :
    ∀ (fuel : Nat) (s : List Char), s.length ≤ fuel → removeThinkF fuel s = removeThink s
  | 0, s, h => by
    have hs : s = [] := List.length_eq_zero.mp (Nat.le_zero.mp h)
    subst hs
    rw [removeThinkF, removeThink_eq_of_none (by decide)]
  | Nat.succ fuel, s, h => by
    cases h1 : splitOnce thinkBegin s with
    | none =>
      simp only [removeThinkF, h1]
      rw [removeThink_eq_of_none h1]
    | some pr =>
      cases h2 : splitOnce thinkEnd pr.2 with
      | none =>
        simp only [removeThinkF, h1, h2]
        rw [removeThink_eq_of_noEnd h1 h2]
      | some pr2 =>
        have hb : pr2.2.length ≤ fuel := by
          obtain ⟨p1, r1⟩ := pr
          obtain ⟨p2, r2⟩ := pr2
          have l1 := @splitOnce_length_lt thinkBegin s p1 r1 (by decide) h1
          have l2 := @splitOnce_length_lt thinkEnd r1 p2 r2 (by decide) h2
          simp only at l1 l2 ⊢
          omega
        simp only [removeThinkF, h1, h2]
        rw [removeThink_eq_of_some h1 h2, removeThinkF_eq fuel pr2.2 hb]

/-- Fuel twin of `collapseBlank`. -/
def collapseBlankF : Nat → List Char → List Char
  | 0, s => s
  | Nat.succ fuel, s =>
    match s with
    | [] => []
    | c :: t =>
      if c = '\n' then
        match afterLastNl t with
        | some r => '\n' :: '\n' :: collapseBlankF fuel r
        | none => c :: collapseBlankF fuel t
      else c :: collapseBlankF fuel t

theorem collapseBlankF_eq :
    ∀ (fuel : Nat) (s : List Char), s.length ≤ fuel → collapseBlankF fuel s = collapseBlank s
  | 0, s, h => by
    have hs : s = [] := List.length_eq_zero.mp (Nat.le_zero.mp h)
    subst hs
    rw [collapseBlankF, collapseBlank_nil]
  | Nat.succ fuel, [], _ => by rw [collapseBlankF, collapseBlank_nil]
  | Nat.succ fuel, c :: t, h => by
    have hlen : t.length ≤ fuel := by
      simp only [List.length_cons] at h
      omega
    by_cases hc : c = '\n'
    · subst hc
      cases hA : afterLastNl t with
      | some r =>
        have hr : r.length ≤ fuel := by
          have := afterLastNl_length hA
          omega
        simp only [collapseBlankF, if_pos rfl, hA]
        rw [collapseBlank_nl_some hA, collapseBlankF_eq fuel r hr]
        simp
      | none =>
        simp only [collapseBlankF, if_pos rfl, hA]
        rw [collapseBlank_nl_none hA, collapseBlankF_eq fuel t hlen]
        simp
    · simp only [collapseBlankF, if_neg hc]
      rw [collapseBlank_cons_ne _ hc, collapseBlankF_eq fuel t hlen]

/-- Fuel twin of `findTagBlocks`. -/
def findTagBlocksF (o cl : List Char) : Nat → List Char → List (List Char × List Char)
  | 0, _ => []
  | Nat.succ fuel, s =>
    match s with
    | [] => []
    | c :: t =>
      match matchTagAt o cl (c :: t) with
      | some res => (res.1, res.2.1) :: findTagBlocksF o cl fuel res.2.2
      | none => findTagBlocksF o cl fuel t

theorem findTagBlocksF_eq (o cl : List Char) :
    ∀ (fuel : Nat) (s : List Char), s.length ≤ fuel →
      findTagBlocksF o cl fuel s = findTagBlocks o cl s
  | 0, s, h => by
    have hs : s = [] := List.length_eq_zero.mp (Nat.le_zero.mp h)
    subst hs
    rw [findTagBlocksF, findTagBlocks_nil]
  | Nat.succ fuel, [], _ => by rw [findTagBlocksF, findTagBlocks_nil]
  | Nat.succ fuel, c :: t, h => by
    have hlen : t.length ≤ fuel := by
      simp only [List.length_cons] at h
      omega
    cases hm : matchTagAt o cl (c :: t) with
    | some res =>
      have hr : res.2.2.length ≤ fuel := by
        have := matchTagAt_length hm
        simp only [List.length_cons] at this
        omega
      simp only [findTagBlocksF, hm]
      rw [findTagBlocks_cons_some hm, findTagBlocksF_eq o cl fuel res.2.2 hr]
    | none =>
      simp only [findTagBlocksF, hm]
      rw [findTagBlocks_cons_none hm, findTagBlocksF_eq o cl fuel t hlen]

/-- Computable twin of `processLLMResponse`. -/
def processLLMResponseF (showThinking : Bool) (s : List Char) : List Char :=
  if showThinking then s
  else
    pyStrip (collapseBlankF (removeThinkF s.length s).length (removeThinkF s.length s))

theorem processLLMResponseF_eq (showThinking : Bool) (s : List Char) :
    processLLMResponseF showThinking s = processLLMResponse showThinking s := by
  cases showThinking with
  | true => rfl
  | false =>
    unfold processLLMResponseF processLLMResponse processWithFallback thinkStripCore
    rw [removeThinkF_eq s.length s (Nat.le_refl _),
      collapseBlankF_eq (removeThink s).length (removeThink s) (Nat.le_refl _)]

/-- Computable twin of `buildArgs`. -/
def buildArgsF (bodyRaw : List Char) : List (List Char × PyValue) :=
  if pyStrip bodyRaw = [] then []
  else
    (findTagBlocksF paramOpenTok paramCloseTok (pyStrip bodyRaw).length
        (pyStrip bodyRaw)).foldl
      (fun d pr => dictInsert d (pyStrip pr.1) (coerceParamValue (pyStrip pr.2))) []

theorem buildArgsF_eq (b : List Char) : buildArgsF b = buildArgs b := by
  unfold buildArgsF buildArgs
  rw [findTagBlocksF_eq paramOpenTok paramCloseTok (pyStrip b).length (pyStrip b)
    (Nat.le_refl _)]

/-- Computable twin of `parseToolCalls`. -/
def parseToolCallsF (s : List Char) : List ToolCall :=
  (findTagBlocksF funcOpenTok funcCloseTok s.length s).map
    (fun pr => { name := pyStrip pr.1, arguments := buildArgsF pr.2 })

theorem parseToolCallsF_eq (s : List Char) : parseToolCallsF s = parseToolCalls s := by
  unfold parseToolCallsF parseToolCalls
  rw [findTagBlocksF_eq funcOpenTok funcCloseTok s.length s (Nat.le_refl _)]
  congr 1
  funext pr
  rw [buildArgsF_eq]

/-- Computable twin of `callLLM`. -/
def callLLMF (endpoint : List Char → List Char) (showThinking : Bool)
    (prompt : List Char) : List Char :=
  processLLMResponseF showThinking (pyStrip (endpoint prompt))

theorem callLLMF_eq (endpoint : List Char → List Char) (showThinking : Bool)
    (prompt : List Char) : callLLMF endpoint showThinking prompt =
      callLLM endpoint showThinking prompt := by
  unfold callLLMF callLLM
  rw [processLLMResponseF_eq]

/-- Computable twin of `runDemo`. -/
def runDemoF (render : List Msg → List Char) (endpoint : List Char → List Char)
    (showThinking : Bool) (nowFormatted : List Char) : DemoRun :=
  let conv0 := [userMsg]
  let out1 := callLLMF endpoint showThinking (render conv0)
  let calls := parseToolCallsF out1
  if calls.isEmpty then
    ⟨conv0, [], out1, 1⟩
  else
    let results := mkToolResults nowFormatted 0 calls
    let conv1 := conv0 ++ results.map (fun r => ⟨"tool".data, r.content, none⟩)
    let out2 := callLLMF endpoint showThinking (render conv1)
    ⟨conv1, results, out2, 2⟩

theorem runDemoF_eq (render : List Msg → List Char) (endpoint : List Char → List Char)
    (showThinking : Bool) (nowFormatted : List Char) :
    runDemoF render endpoint showThinking nowFormatted =
      runDemo render endpoint showThinking nowFormatted := by
  unfold runDemoF runDemo
  simp only [callLLMF_eq, parseToolCallsF_eq]

/-! ### Properties of the dispatch loop -/

theorem mkToolResults_length (now : List Char) :
    ∀ (start : Nat) (calls : List ToolCall),
      (mkToolResults now start calls).length = calls.length
  | _, [] => rfl
  | start, _ :: rest => by
    simp [mkToolResults, mkToolResults_length now (start + 1) rest]

theorem mkToolResults_get? (now : List Char) :
    ∀ (calls : List ToolCall) (start idx : Nat) (tc : ToolCall),
      calls.get? idx = some tc →
      (mkToolResults now start calls).get? idx = some (resultFor now (start + idx) tc)
  | [], _, idx, _, h => by simp at h
  | tc' :: rest, start, 0, tc, h => by
    simp only [List.get?] at h
    injection h with h
    subst h
    simp [mkToolResults]
  | tc' :: rest, start, Nat.succ idx, tc, h => by
    simp only [List.get?] at h
    have ih := mkToolResults_get? now rest (start + 1) idx tc h
    have harith : start + 1 + idx = start + (idx + 1) := by omega
    rw [harith] at ih
    simpa [mkToolResults, List.get?] using ih

theorem mkToolResults_shape (now : List Char) :
    ∀ (start : Nat) (calls : List ToolCall) (r : Msg),
      r ∈ mkToolResults now start calls →
      r.role = "tool".data ∧ ∃ id, r.tool_call_id = some id
  | start, [], r, h => by simp [mkToolResults] at h
  | start, tc :: rest, r, h => by
    simp only [mkToolResults, List.mem_cons] at h
    rcases h with h | h
    · subst h
      unfold resultFor
      cases executeToolCall now tc with
      | ok v => exact ⟨rfl, callId start, rfl⟩
      | error e => exact ⟨rfl, callId start, rfl⟩
    · exact mkToolResults_shape now (start + 1) rest r h

/-- Claim C6: `execute_tool_call` on any name other than the registered
`get_current_local_time` raises `ValueError` carrying exactly that name
in its message and never returns a result; on the registered name it
returns the formatted timestamp. -/
theorem c6_unknown_function_fails (now name : List Char)
    (args args2 : List (List Char × PyValue)) :
    (name ≠ timeToolName →
      executeToolCall now ⟨name, args⟩ =
        Except.error (PyExc.valueError (unknownFunctionMsg name))) ∧
    executeToolCall now ⟨timeToolName, args2⟩ =
      Except.ok (getCurrentLocalTime now) := by
  constructor
  · intro h
    unfold executeToolCall
    rw [if_neg h]
  · unfold executeToolCall
    rw [if_pos rfl]

/-- Witness for C6 at the unregistered name `foo` and the registered
time tool. -/
theorem c6_unknown_function_fails_witness :
    executeToolCall ("2024-05-20 16:30:00".data) ⟨"foo".data, []⟩ =
      Except.error (PyExc.valueError (unknownFunctionMsg ("foo".data))) ∧
    executeToolCall ("2024-05-20 16:30:00".data) ⟨timeToolName, []⟩ =
      Except.ok (getCurrentLocalTime ("2024-05-20 16:30:00".data)) :=
  ⟨(c6_unknown_function_fails ("2024-05-20 16:30:00".data) ("foo".data) [] []).1
      (by decide),
    (c6_unknown_function_fails ("2024-05-20 16:30:00".data) ("foo".data) [] []).2⟩

/-- Counterexample to claim C7 as stated: the error content carries a
three-character marker and a space in front of `ERROR in tool ...`, so it
does not equal the claimed exact format. -/
theorem c7_error_format_counterexample :
    (mkToolResults ("T".data) 0 [⟨"foo".data, []⟩]).map Msg.content =
      [errPrefix ++ ("ERROR in tool ".data ++ apos ::
        ("foo".data ++ apos :: (": ".data ++ unknownFunctionMsg ("foo".data))))] ∧
    (mkToolResults ("T".data) 0 [⟨"foo".data, []⟩]).map Msg.content ≠
      ["ERROR in tool ".data ++ apos ::
        ("foo".data ++ apos :: (": ".data ++ unknownFunctionMsg ("foo".data)))] := by
  constructor
  · rfl
  · decide

/-- Claim C7 (amended): the dispatch loop yields exactly one ToolResult
per ToolCall, in parse order, and when dispatch of a call fails the
result's content is the error string
`<mark> ERROR in tool '<name>': <message>` (the source prepends a
three-character marker and a space to the claimed format). -/
theorem c7_one_result_per_call (now : List Char) (calls : List ToolCall) :
    (∀ start, (mkToolResults now start calls).length = calls.length) ∧
    (∀ start idx tc, calls.get? idx = some tc →
      (mkToolResults now start calls).get? idx =
        some (resultFor now (start + idx) tc)) ∧
    (∀ idx tc e, executeToolCall now tc = Except.error e →
      (resultFor now idx tc).content = errorContent tc.name (pyExcMsg e)) ∧
    (∀ idx tc r, executeToolCall now tc = Except.ok r →
      (resultFor now idx tc).content = r) := by
  refine ⟨fun start => mkToolResults_length now start calls,
    fun start idx tc h => mkToolResults_get? now calls start idx tc h, ?_, ?_⟩
  · intro idx tc e h
    unfold resultFor
    rw [h]
  · intro idx tc r h
    unfold resultFor
    rw [h]

/-- Witness for C7 (amended) on the two-call list with one failing and
one succeeding call. -/
theorem c7_one_result_per_call_witness :
    (mkToolResults ("T".data) 0 [⟨timeToolName, []⟩, ⟨"foo".data, []⟩]).length =
      ([⟨timeToolName, []⟩, ⟨"foo".data, []⟩] : List ToolCall).length ∧
    (mkToolResults ("T".data) 0 [⟨timeToolName, []⟩, ⟨"foo".data, []⟩]).get? 1 =
      some (resultFor ("T".data) (0 + 1) ⟨"foo".data, []⟩) ∧
    (resultFor ("T".data) 1 ⟨"foo".data, []⟩).content =
      errorContent ("foo".data) (pyExcMsg
        (PyExc.valueError (unknownFunctionMsg ("foo".data)))) ∧
    (resultFor ("T".data) 0 ⟨timeToolName, []⟩).content = "T".data :=
  ⟨(c7_one_result_per_call ("T".data) [⟨timeToolName, []⟩, ⟨"foo".data, []⟩]).1 0,
    (c7_one_result_per_call ("T".data) [⟨timeToolName, []⟩, ⟨"foo".data, []⟩]).2.1 0 1
      ⟨"foo".data, []⟩ rfl,
    (c7_one_result_per_call ("T".data) [⟨timeToolName, []⟩, ⟨"foo".data, []⟩]).2.2.1 1
      ⟨"foo".data, []⟩ (PyExc.valueError (unknownFunctionMsg ("foo".data))) rfl,
    (c7_one_result_per_call ("T".data) [⟨timeToolName, []⟩, ⟨"foo".data, []⟩]).2.2.2 0
      ⟨timeToolName, []⟩ ("T".data) rfl⟩

theorem isEmpty_false_of_ne_nil {α : Type} {l : List α} (h : l ≠ []) :
    l.isEmpty = false := by
  cases l with
  | nil => exact absurd rfl h
  | cons a t => rfl

/-- Claim C5: the loop driver performs exactly zero or one rounds of
tool execution.  With zero function blocks in the (post-processed) first
response the run ends after one model round-trip and the answer is that
processed response verbatim; otherwise there are exactly two model
round-trips, the dispatched calls are exactly those parsed from the
first response, and the second response is returned as the final answer
without being parsed or dispatched. -/
theorem c5_zero_or_one_rounds (render : List Msg → List Char)
    (endpoint : List Char → List Char) (st : Bool) (now : List Char) :
    (parseToolCalls (callLLM endpoint st (render [userMsg])) = [] →
      runDemo render endpoint st now =
        ⟨[userMsg], [], callLLM endpoint st (render [userMsg]), 1⟩) ∧
    (parseToolCalls (callLLM endpoint st (render [userMsg])) ≠ [] →
      (runDemo render endpoint st now).modelCalls = 2 ∧
      (runDemo render endpoint st now).toolResults =
        mkToolResults now 0 (parseToolCalls (callLLM endpoint st (render [userMsg]))) ∧
      (runDemo render endpoint st now).finalAnswer =
        callLLM endpoint st (render ([userMsg] ++
          (mkToolResults now 0
            (parseToolCalls (callLLM endpoint st (render [userMsg])))).map
            (fun r => ⟨"tool".data, r.content, none⟩)))) := by
  constructor
  · intro hpe
    unfold runDemo
    simp only [hpe]
    rfl
  · intro hne
    have hfalse := isEmpty_false_of_ne_nil hne
    unfold runDemo
    simp only [hfalse]
    exact ⟨rfl, rfl, rfl⟩

/-- Deterministic collaborators used to witness the driver claims: a
renderer that ignores the conversation and endpoints answering with
fixed text. -/
def cRenderEmpty : List Msg → List Char := fun _ => []

def cEndpointPlain : List Char → List Char := fun _ => "hello".data

def cEndpointTime : List Char → List Char :=
  fun _ => "<function=get_current_local_time></function>".data

def cNow : List Char := "2024-05-20 16:30:00".data

/-- Witness for C5: a run with no tool calls and a run with one. -/
theorem c5_zero_or_one_rounds_witness :
    runDemo cRenderEmpty cEndpointPlain false cNow =
      ⟨[userMsg], [], callLLM cEndpointPlain false (cRenderEmpty [userMsg]), 1⟩ ∧
    (runDemo cRenderEmpty cEndpointTime false cNow).modelCalls = 2 ∧
    (runDemo cRenderEmpty cEndpointTime false cNow).toolResults =
      mkToolResults cNow 0
        (parseToolCalls (callLLM cEndpointTime false (cRenderEmpty [userMsg]))) :=
  ⟨(c5_zero_or_one_rounds cRenderEmpty cEndpointPlain false cNow).1
      (by rw [← parseToolCallsF_eq, ← callLLMF_eq]; rfl),
    ((c5_zero_or_one_rounds cRenderEmpty cEndpointTime false cNow).2
      (by rw [← parseToolCallsF_eq, ← callLLMF_eq]; intro h; cases h)).1,
    ((c5_zero_or_one_rounds cRenderEmpty cEndpointTime false cNow).2
      (by rw [← parseToolCallsF_eq, ← callLLMF_eq]; intro h; cases h)).2.1⟩

/-- Counterexample to claim C9 as stated: the run appends to the
conversation a fresh message with only the role and content; the
ToolResult itself, which carries `tool_call_id`, is not what is
appended. -/
theorem c9_result_not_appended_counterexample :
    (runDemo cRenderEmpty cEndpointTime false cNow).toolResults =
      [⟨"tool".data, cNow, some ("call_0".data)⟩] ∧
    (runDemo cRenderEmpty cEndpointTime false cNow).conversation =
      [userMsg, ⟨"tool".data, cNow, none⟩] ∧
    (⟨"tool".data, cNow, none⟩ : Msg) ≠ ⟨"tool".data, cNow, some ("call_0".data)⟩ := by
  refine ⟨?_, ?_, by decide⟩
  · rw [← runDemoF_eq]
    rfl
  · rw [← runDemoF_eq]
    rfl

/-- Claim C9 (amended): every ToolResult produced by dispatch has the
shape role = "tool", textual content, and a `tool_call_id`; for each
such result a new message carrying its role and content (without the
`tool_call_id`) is appended to the conversation, which is append-only
during the run: the final conversation is exactly the initial user
message followed by those appended messages. -/
theorem c9_results_shape_append_only (render : List Msg → List Char)
    (endpoint : List Char → List Char) (st : Bool) (now : List Char) :
    (∀ r ∈ (runDemo render endpoint st now).toolResults,
      r.role = "tool".data ∧ ∃ id, r.tool_call_id = some id) ∧
    (runDemo render endpoint st now).conversation =
      [userMsg] ++ (runDemo render endpoint st now).toolResults.map
        (fun r => ⟨"tool".data, r.content, none⟩) := by
  unfold runDemo
  cases he : (parseToolCalls (callLLM endpoint st (render [userMsg]))).isEmpty with
  | true =>
    simp only [he]
    exact ⟨fun r hr => absurd hr (by simp), rfl⟩
  | false =>
    simp only [he]
    refine ⟨?_, rfl⟩
    intro r hr
    exact mkToolResults_shape now 0 _ r hr

/-- Witness for C9 (amended) on a concrete run with one tool call. -/
theorem c9_results_shape_append_only_witness :
    ((⟨"tool".data, cNow, some ("call_0".data)⟩ : Msg).role = "tool".data ∧
      ∃ id, (⟨"tool".data, cNow, some ("call_0".data)⟩ : Msg).tool_call_id = some id) ∧
    (runDemo cRenderEmpty cEndpointTime false cNow).conversation =
      [userMsg] ++ (runDemo cRenderEmpty cEndpointTime false cNow).toolResults.map
        (fun r => ⟨"tool".data, r.content, none⟩) :=
  ⟨(c9_results_shape_append_only cRenderEmpty cEndpointTime false cNow).1
      ⟨"tool".data, cNow, some ("call_0".data)⟩
      (by rw [← runDemoF_eq]; decide),
    (c9_results_shape_append_only cRenderEmpty cEndpointTime false cNow).2⟩

/-- Claim C2: each raw parameter value is trimmed and tentatively parsed
as JSON; on success the decoded value is stored, on failure the trimmed
string itself; in particular the example block parses to one ToolCall
named `foo` with `x` bound to the number 1 and `y` bound to the string
`"bar"`. -/
theorem c2_value_coercion :
    parseToolCalls
        ("<function=foo><parameter=x>1</parameter><parameter=y>bar</parameter></function>".data) =
      [⟨"foo".data, [("x".data, PyValue.pyInt 1), ("y".data, PyValue.pyStr ("bar".data))]⟩] ∧
    (∀ v j, pyJsonLoads v = some j → coerceParamValue v = j) ∧
    (∀ v, pyJsonLoads v = none → coerceParamValue v = PyValue.pyStr v) := by
  refine ⟨?_, ?_, ?_⟩
  · rw [← parseToolCallsF_eq]
    rfl
  · intro v j h
    unfold coerceParamValue
    rw [h]
  · intro v h
    unfold coerceParamValue
    rw [h]

/-- Witness for C2's coercion clauses at the example's two values. -/
theorem c2_value_coercion_witness :
    coerceParamValue ("1".data) = PyValue.pyInt 1 ∧
    coerceParamValue ("bar".data) = PyValue.pyStr ("bar".data) :=
  ⟨c2_value_coercion.2.1 ("1".data) (PyValue.pyInt 1) rfl,
    c2_value_coercion.2.2 ("bar".data) rfl⟩

/-- Claim C10: `parse_tool_calls` is total and never raises (in the
embedding every operation is a total function; the one fallible step,
`json.loads`, is wrapped exactly as the source's `try/except` does):
empty text, tag-free text, an unclosed function block, a parameter tag
outside any function block and an empty function name all yield the
empty list, and an unterminated parameter tag contributes no
parameter. -/
theorem c10_parse_total_on_malformed :
    parseToolCalls [] = [] ∧
    parseToolCalls ("no tags here".data) = [] ∧
    parseToolCalls ("<function=foo><parameter=x>1".data) = [] ∧
    parseToolCalls ("<parameter=x>1</parameter>".data) = [] ∧
    parseToolCalls ("<function=>abc</function>".data) = [] ∧
    parseToolCalls ("<function=f><parameter=x>1</function>".data) = [⟨"f".data, []⟩] := by
  refine ⟨?_, ?_, ?_, ?_, ?_, ?_⟩ <;>
    · rw [← parseToolCallsF_eq]
      rfl

/-! ### Rendered function blocks and the general parser theorem -/

/-- One rendered parameter block `<parameter=NAME>VALUE</parameter>`. -/
def renderParam (p : List Char × List Char) : List Char :=
  paramOpenTok ++ p.1 ++ '>' :: (p.2 ++ paramCloseTok)

/-- The body of a function block: its parameter blocks in order. -/
def renderParams (ps : List (List Char × List Char)) : List Char :=
  (ps.map renderParam).join

/-- One rendered function block `<function=NAME>BODY</function>`. -/
def renderBlock (b : List Char × List (List Char × List Char)) : List Char :=
  funcOpenTok ++ b.1 ++ '>' :: (renderParams b.2 ++ funcCloseTok)

/-- A text with function blocks interleaved between surrounding junk
pieces (one more junk piece than blocks). -/
def assembleCalls :
    List (List Char) → List (List Char × List (List Char × List Char)) → List Char
  | j :: js', b :: bs' => j ++ renderBlock b ++ assembleCalls js' bs'
  | j :: _, [] => j
  | [], _ => []

/-- Well-formedness of a rendered tag name: nonempty and free of the
delimiter characters. -/
def wfName (n : List Char) : Prop := n ≠ [] ∧ '<' ∉ n ∧ '>' ∉ n

/-- Well-formedness of a rendered parameter: a well-formed name and a
value free of `<` (so it cannot imitate a closing tag). -/
def wfParam (p : List Char × List Char) : Prop :=
  p.1 ≠ [] ∧ '<' ∉ p.1 ∧ '>' ∉ p.1 ∧ '<' ∉ p.2

def wfBlock (b : List Char × List (List Char × List Char)) : Prop :=
  wfName b.1 ∧ ∀ p ∈ b.2, wfParam p

/-- The arguments mapping the parser is expected to build for one
block: stripped names, stripped-and-coerced values, assigned in order
into a Python dict. -/
def expectedArgs (ps : List (List Char × List Char)) : List (List Char × PyValue) :=
  ps.foldl (fun d p => dictInsert d (pyStrip p.1) (coerceParamValue (pyStrip p.2))) []

def expectedCall (b : List Char × List (List Char × List Char)) : ToolCall :=
  ⟨pyStrip b.1, expectedArgs b.2⟩

/-- Mapping lookup in an arguments dict. -/
def lookupArg (d : List (List Char × PyValue)) (k : List Char) : Option PyValue :=
  (d.find? (fun p => decide (p.1 = k))).map (fun p => p.2)

/-- The value of the last occurrence of a key in an association
sequence. -/
def lastOcc (ps : List (List Char × PyValue)) (k : List Char) : Option PyValue :=
  (ps.reverse.find? (fun p => decide (p.1 = k))).map (fun p => p.2)

theorem char_eq_of_toNat_eq {a b : Char} (h : a.toNat = b.toNat) : a = b := by
  have h1 := Char.ofNat_toNat a
  have h2 := Char.ofNat_toNat b
  rw [← h1, ← h2, h]

theorem ciEq_lt_elim {c : Char} (h : ciEq '<' c = true) : c = '<' := by
  unfold ciEq lowerCode at h
  simp only [decide_eq_true_eq] at h
  apply char_eq_of_toNat_eq
  have hlt : ('<').toNat = 60 := by decide
  by_cases hc : 65 ≤ c.toNat ∧ c.toNat ≤ 90
  · rw [if_neg (by simp [hlt]), if_pos hc] at h
    omega
  · rw [if_neg (by simp [hlt]), if_neg hc] at h
    simp [hlt]
    omega

theorem ciEq_refl (a : Char) : ciEq a a = true := by
  unfold ciEq
  simp

theorem ciStripTok_self (tok r : List Char) : ciStripTok tok (tok ++ r) = some r := by
  induction tok with
  | nil => rfl
  | cons a as ih => simp [ciStripTok, ciEq_refl, ih]

theorem ciStripTok_lt_none {tk : List Char} {c : Char} (hc : c ≠ '<') (z : List Char) :
    ciStripTok ('<' :: tk) (c :: z) = none := by
  have : ciEq '<' c = false := by
    cases hcc : ciEq '<' c with
    | false => rfl
    | true => exact absurd (ciEq_lt_elim hcc) hc
  simp [ciStripTok, this]

theorem ciSplitOnce_at_tok (a : Char) (as x : List Char) :
    ciSplitOnce (a :: as) ((a :: as) ++ x) = some ([], x) := by
  have h : ciStripTok (a :: as) (a :: (as ++ x)) = some x := by
    simpa using ciStripTok_self (a :: as) x
  simp [ciSplitOnce, List.append_eq, h]

theorem ciSplitOnce_cons_of_none {tok z : List Char} {c : Char}
    (h : ciStripTok tok (c :: z) = none) {p r : List Char}
    (hrec : ciSplitOnce tok z = some (p, r)) :
    ciSplitOnce tok (c :: z) = some (c :: p, r) := by
  simp [ciSplitOnce, h, hrec]

theorem ciSplitOnce_skip_noLt {tk : List Char} :
    ∀ (y : List Char) {z p r : List Char}, '<' ∉ y →
      ciSplitOnce ('<' :: tk) z = some (p, r) →
      ciSplitOnce ('<' :: tk) (y ++ z) = some (y ++ p, r)
  | [], _, _, _, _, h => by simpa using h
  | c :: y', z, p, r, hy, h => by
    have hc : c ≠ '<' := by
      intro hc; exact hy (by simp [hc])
    have hy' : '<' ∉ y' := fun hm => hy (by simp [hm])
    have ih := ciSplitOnce_skip_noLt y' hy' h
    have := ciSplitOnce_cons_of_none (ciStripTok_lt_none hc (y' ++ z)) ih
    simpa using this

theorem splitFirstChar_at {ch : Char} :
    ∀ (nm : List Char) (r : List Char), ch ∉ nm →
      splitFirstChar ch (nm ++ ch :: r) = some (nm, r)
  | [], r, _ => by simp [splitFirstChar]
  | c :: nm', r, hn => by
    have hc : c ≠ ch := by
      intro hc; exact hn (by simp [hc])
    have hn' : ch ∉ nm' := fun hm => hn (by simp [hm])
    have ih := splitFirstChar_at nm' r hn'
    simp [splitFirstChar, hc, ih]

theorem matchTagAt_none_of_head {tk cl : List Char} {c : Char} (hc : c ≠ '<')
    (t : List Char) : matchTagAt ('<' :: tk) cl (c :: t) = none := by
  unfold matchTagAt
  rw [ciStripTok_lt_none hc t]

theorem findTagBlocks_skip_junk {tk cl : List Char} :
    ∀ (j : List Char) (x : List Char), '<' ∉ j →
      findTagBlocks ('<' :: tk) cl (j ++ x) = findTagBlocks ('<' :: tk) cl x
  | [], x, _ => by simp
  | c :: j', x, hj => by
    have hc : c ≠ '<' := by
      intro hc; exact hj (by simp [hc])
    have hj' : '<' ∉ j' := fun hm => hj (by simp [hm])
    rw [List.cons_append, findTagBlocks_cons_none (matchTagAt_none_of_head hc (j' ++ x)),
      findTagBlocks_skip_junk j' x hj']

theorem findTagBlocks_noLt {tk cl : List Char} (j : List Char) (hj : '<' ∉ j) :
    findTagBlocks ('<' :: tk) cl j = [] := by
  have h := @findTagBlocks_skip_junk tk cl j [] hj
  rw [List.append_nil] at h
  rw [h, findTagBlocks_nil]

theorem ciStripTok_fclose_popen (z : List Char) :
    ciStripTok funcCloseTok (paramOpenTok ++ z) = none := by
  rw [show funcCloseTok = '<' :: '/' :: ("function>".data) from rfl,
    show paramOpenTok ++ z = '<' :: 'p' :: ("arameter=".data ++ z) from rfl]
  simp [ciStripTok, show ciEq '<' '<' = true from by decide,
    show ciEq '/' 'p' = false from by decide]

theorem ciStripTok_fclose_pclose (z : List Char) :
    ciStripTok funcCloseTok (paramCloseTok ++ z) = none := by
  rw [show funcCloseTok = '<' :: '/' :: 'f' :: ("unction>".data) from rfl,
    show paramCloseTok ++ z = '<' :: '/' :: 'p' :: ("arameter>".data ++ z) from rfl]
  simp [ciStripTok, show ciEq '<' '<' = true from by decide,
    show ciEq '/' '/' = true from by decide,
    show ciEq 'f' 'p' = false from by decide]

theorem ciSplitOnce_skip_popen {z p r : List Char}
    (h : ciSplitOnce funcCloseTok z = some (p, r)) :
    ciSplitOnce funcCloseTok (paramOpenTok ++ z) = some (paramOpenTok ++ p, r) := by
  have hy : '<' ∉ ("parameter=".data) := by decide
  have step1 : ciSplitOnce funcCloseTok (("parameter=".data) ++ z) =
      some (("parameter=".data) ++ p, r) := by
    rw [show funcCloseTok = '<' :: ("/function>".data) from rfl] at h ⊢
    exact ciSplitOnce_skip_noLt _ hy h
  have step0 : ciStripTok funcCloseTok ('<' :: (("parameter=".data) ++ z)) = none :=
    ciStripTok_fclose_popen z
  have := ciSplitOnce_cons_of_none step0 step1
  simpa using this

theorem ciSplitOnce_skip_pclose {z p r : List Char}
    (h : ciSplitOnce funcCloseTok z = some (p, r)) :
    ciSplitOnce funcCloseTok (paramCloseTok ++ z) = some (paramCloseTok ++ p, r) := by
  have hy : '<' ∉ ("/parameter>".data) := by decide
  have step1 : ciSplitOnce funcCloseTok (("/parameter>".data) ++ z) =
      some (("/parameter>".data) ++ p, r) := by
    rw [show funcCloseTok = '<' :: ("/function>".data) from rfl] at h ⊢
    exact ciSplitOnce_skip_noLt _ hy h
  have step0 : ciStripTok funcCloseTok ('<' :: (("/parameter>".data) ++ z)) = none :=
    ciStripTok_fclose_pclose z
  have := ciSplitOnce_cons_of_none step0 step1
  simpa using this

theorem renderParams_cons (p : List Char × List Char)
    (ps : List (List Char × List Char)) :
    renderParams (p :: ps) = renderParam p ++ renderParams ps := by
  simp [renderParams]

theorem ciSplitOnce_close_renderParams :
    ∀ (ps : List (List Char × List Char)) (rest : List Char),
      (∀ p ∈ ps, wfParam p) →
      ciSplitOnce funcCloseTok (renderParams ps ++ (funcCloseTok ++ rest)) =
        some (renderParams ps, rest)
  | [], rest, _ => by
    simp only [renderParams, List.map_nil, List.join, List.nil_append]
    rw [show funcCloseTok = '<' :: ("/function>".data) from rfl]
    exact ciSplitOnce_at_tok '<' _ rest
  | p :: ps', rest, hw => by
    obtain ⟨hne, hlt1, hgt1, hlt2⟩ := hw p (by simp)
    have ih := ciSplitOnce_close_renderParams ps' rest (fun q hq => hw q (by simp [hq]))
    have h1 := ciSplitOnce_skip_pclose ih
    have hy : '<' ∉ (p.1 ++ '>' :: p.2) := by
      intro hm
      rcases List.mem_append.mp hm with hm | hm
      · exact hlt1 hm
      · rcases List.mem_cons.mp hm with hm | hm
        · exact absurd hm.symm (by decide)
        · exact hlt2 hm
    have h2 : ciSplitOnce funcCloseTok
        ((p.1 ++ '>' :: p.2) ++ (paramCloseTok ++ (renderParams ps' ++ (funcCloseTok ++ rest)))) =
        some ((p.1 ++ '>' :: p.2) ++ (paramCloseTok ++ renderParams ps'), rest) := by
      rw [show funcCloseTok = '<' :: ("/function>".data) from rfl] at h1 ⊢
      exact ciSplitOnce_skip_noLt _ hy h1
    have h3 := ciSplitOnce_skip_popen h2
    rw [renderParams_cons]
    rw [show renderParam p ++ renderParams ps' ++ (funcCloseTok ++ rest) =
      paramOpenTok ++ ((p.1 ++ '>' :: p.2) ++
        (paramCloseTok ++ (renderParams ps' ++ (funcCloseTok ++ rest)))) by
      simp [renderParam, List.append_assoc]]
    rw [h3]
    rw [show renderParam p ++ renderParams ps' =
      paramOpenTok ++ ((p.1 ++ '>' :: p.2) ++ (paramCloseTok ++ renderParams ps')) by
      simp [renderParam, List.append_assoc]]

theorem matchTagAt_renderBlock {b : List Char × List (List Char × List Char)}
    (hb : wfBlock b) (rest : List Char) :
    matchTagAt funcOpenTok funcCloseTok (renderBlock b ++ rest) =
      some (b.1, renderParams b.2, rest) := by
  obtain ⟨⟨hne, hlt, hgt⟩, hps⟩ := hb
  have h1 : ciStripTok funcOpenTok (renderBlock b ++ rest) =
      some (b.1 ++ '>' :: (renderParams b.2 ++ (funcCloseTok ++ rest))) := by
    rw [show renderBlock b ++ rest =
      funcOpenTok ++ (b.1 ++ '>' :: (renderParams b.2 ++ (funcCloseTok ++ rest))) by
      simp [renderBlock, List.append_assoc]]
    exact ciStripTok_self _ _
  have h2 : splitFirstChar '>' (b.1 ++ '>' :: (renderParams b.2 ++ (funcCloseTok ++ rest))) =
      some (b.1, renderParams b.2 ++ (funcCloseTok ++ rest)) :=
    splitFirstChar_at b.1 _ hgt
  have h3 := ciSplitOnce_close_renderParams b.2 rest hps
  unfold matchTagAt
  simp only [h1, h2, if_neg hne, h3]

theorem matchTagAt_renderParam {p : List Char × List Char} (hp : wfParam p)
    (rest : List Char) :
    matchTagAt paramOpenTok paramCloseTok (renderParam p ++ rest) =
      some (p.1, p.2, rest) := by
  obtain ⟨hne, hlt1, hgt1, hlt2⟩ := hp
  have h1 : ciStripTok paramOpenTok (renderParam p ++ rest) =
      some (p.1 ++ '>' :: (p.2 ++ (paramCloseTok ++ rest))) := by
    rw [show renderParam p ++ rest =
      paramOpenTok ++ (p.1 ++ '>' :: (p.2 ++ (paramCloseTok ++ rest))) by
      simp [renderParam, List.append_assoc]]
    exact ciStripTok_self _ _
  have h2 : splitFirstChar '>' (p.1 ++ '>' :: (p.2 ++ (paramCloseTok ++ rest))) =
      some (p.1, p.2 ++ (paramCloseTok ++ rest)) :=
    splitFirstChar_at p.1 _ hgt1
  have h3 : ciSplitOnce paramCloseTok (p.2 ++ (paramCloseTok ++ rest)) =
      some (p.2, rest) := by
    rw [show paramCloseTok = '<' :: ("/parameter>".data) from rfl]
    have := ciSplitOnce_skip_noLt p.2 hlt2 (ciSplitOnce_at_tok '<' ("/parameter>".data) rest)
    simpa using this
  unfold matchTagAt
  simp only [h1, h2, if_neg hne, h3]

theorem findTagBlocks_eq_cons_of_match {o cl s : List Char}
    {res : List Char × List Char × List Char} (hs : s ≠ [])
    (h : matchTagAt o cl s = some res) :
    findTagBlocks o cl s = (res.1, res.2.1) :: findTagBlocks o cl res.2.2 := by
  cases s with
  | nil => exact absurd rfl hs
  | cons c t => exact findTagBlocks_cons_some h

theorem renderParam_ne_nil_append (p : List Char × List Char) (x : List Char) :
    renderParam p ++ x ≠ [] := by
  simp [renderParam, paramOpenTok]

theorem renderBlock_ne_nil_append (b : List Char × List (List Char × List Char))
    (x : List Char) : renderBlock b ++ x ≠ [] := by
  simp [renderBlock, funcOpenTok]

theorem findTagBlocks_renderParams :
    ∀ (ps : List (List Char × List Char)), (∀ p ∈ ps, wfParam p) →
      findTagBlocks paramOpenTok paramCloseTok (renderParams ps) = ps
  | [], _ => by
    simp only [renderParams, List.map_nil, List.join]
    exact findTagBlocks_nil _ _
  | p :: ps', hw => by
    have hp := hw p (by simp)
    have ih := findTagBlocks_renderParams ps' (fun q hq => hw q (by simp [hq]))
    rw [renderParams_cons]
    rw [findTagBlocks_eq_cons_of_match (renderParam_ne_nil_append p (renderParams ps'))
      (matchTagAt_renderParam hp (renderParams ps'))]
    simp [ih]

theorem findTagBlocks_assemble :
    ∀ (bs : List (List Char × List (List Char × List Char))) (js : List (List Char)),
      js.length = bs.length + 1 →
      (∀ j ∈ js, '<' ∉ j) → (∀ b ∈ bs, wfBlock b) →
      findTagBlocks funcOpenTok funcCloseTok (assembleCalls js bs) =
        bs.map (fun b => (b.1, renderParams b.2))
  | [], js, hlen, hj, _ => by
    obtain ⟨j, rfl⟩ : ∃ j, js = [j] := by
      cases js with
      | nil => simp at hlen
      | cons j js' =>
        cases js' with
        | nil => exact ⟨j, rfl⟩
        | cons _ _ => simp at hlen
    show findTagBlocks funcOpenTok funcCloseTok j = []
    rw [show funcOpenTok = '<' :: ("function=".data) from rfl]
    exact findTagBlocks_noLt j (hj j (by simp))
  | b :: bs', js, hlen, hj, hb => by
    obtain ⟨j, js', rfl⟩ : ∃ j js', js = j :: js' := by
      cases js with
      | nil => simp at hlen
      | cons j js' => exact ⟨j, js', rfl⟩
    have ih := findTagBlocks_assemble bs' js' (by simpa using hlen)
      (fun x hx => hj x (by simp [hx])) (fun x hx => hb x (by simp [hx]))
    show findTagBlocks funcOpenTok funcCloseTok
        (j ++ renderBlock b ++ assembleCalls js' bs') = _
    rw [List.append_assoc]
    rw [show funcOpenTok = '<' :: ("function=".data) from rfl]
    rw [findTagBlocks_skip_junk j _ (hj j (by simp))]
    rw [show ('<' :: ("function=".data)) = funcOpenTok from rfl]
    rw [findTagBlocks_eq_cons_of_match
      (renderBlock_ne_nil_append b (assembleCalls js' bs'))
      (matchTagAt_renderBlock (hb b (by simp)) (assembleCalls js' bs'))]
    simp [ih]

theorem lookupArg_dictInsert (d : List (List Char × PyValue)) (k' : List Char)
    (v : PyValue) (k : List Char) :
    lookupArg (dictInsert d k' v) k = if k' = k then some v else lookupArg d k := by
  induction d with
  | nil =>
    unfold dictInsert lookupArg
    by_cases h : k' = k
    · simp [List.find?, h]
    · simp [List.find?, h]
  | cons a t ih =>
    obtain ⟨a1, a2⟩ := a
    unfold dictInsert
    by_cases ha : a1 = k'
    · rw [if_pos ha]
      subst ha
      by_cases hk : a1 = k
      · simp [lookupArg, List.find?, hk]
      · simp [lookupArg, List.find?, hk]
    · rw [if_neg ha]
      simp only [lookupArg, List.find?] at ih ⊢
      by_cases hak : a1 = k
      · have hkk : k' ≠ k := fun hq => ha (hak.trans hq.symm)
        simp [hak, hkk]
      · simp [hak, ih]

theorem lookupArg_foldl (k : List Char) :
    ∀ (ps : List (List Char × PyValue)) (d : List (List Char × PyValue)),
      lookupArg (ps.foldl (fun d q => dictInsert d q.1 q.2) d) k =
        (match lastOcc ps k with
         | some v => some v
         | none => lookupArg d k)
  | [], d => by
    unfold lastOcc
    simp [List.find?]
  | p :: ps', d => by
    have ih := lookupArg_foldl k ps' (dictInsert d p.1 p.2)
    simp only [List.foldl_cons]
    rw [ih]
    have hrev : lastOcc (p :: ps') k =
        (match lastOcc ps' k with
         | some v => some v
         | none => if p.1 = k then some p.2 else none) := by
      unfold lastOcc
      rw [List.reverse_cons, List.find?_append]
      cases hf : ps'.reverse.find? (fun q => decide (q.1 = k)) with
      | some q => simp [Option.or]
      | none =>
        simp only [Option.or]
        by_cases hk : p.1 = k
        · simp [List.find?, hk]
        · simp [List.find?, hk]
    rw [hrev]
    cases hlast : lastOcc ps' k with
    | some v => rfl
    | none =>
      rw [lookupArg_dictInsert]
      by_cases hk : p.1 = k
      · simp [hk]
      · simp [hk]

/-- `strip` of a text with non-whitespace endpoints is the text
itself. -/
theorem pyStrip_eq_self {s : List Char}
    (h1 : ∀ c, s.head? = some c → isPySpace c = false) (h2 : lastNotWs s) :
    pyStrip s = s := by
  unfold pyStrip
  rw [dropWhile_of_head_not _ _ h1]
  have hrev : s.reverse.dropWhile isPySpace = s.reverse := by
    apply dropWhile_of_head_not
    intro c hc
    have hg : s.getLast? = some c := by
      have hgr := List.getLast?_reverse s.reverse
      rw [List.reverse_reverse] at hgr
      rw [← hgr] at hc
      exact hc
    exact h2 c hg
  rw [hrev, List.reverse_reverse]

theorem renderParam_getLast (p : List Char × List Char) :
    (renderParam p).getLast? = some '>' := by
  rw [show renderParam p = (paramOpenTok ++ p.1 ++ '>' :: p.2) ++ paramCloseTok by
    simp [renderParam, List.append_assoc]]
  rw [List.getLast?_append]
  rw [show paramCloseTok.getLast? = some '>' from by decide]
  rfl

theorem renderParams_getLast :
    ∀ (p : List Char × List Char) (ps : List (List Char × List Char)),
      (renderParams (p :: ps)).getLast? = some '>'
  | p, [] => by
    rw [renderParams_cons]
    simpa [renderParams] using renderParam_getLast p
  | p, q :: qs => by
    rw [renderParams_cons, List.getLast?_append, renderParams_getLast q qs]
    rfl

theorem buildArgs_renderParams (ps : List (List Char × List Char))
    (hw : ∀ p ∈ ps, wfParam p) : buildArgs (renderParams ps) = expectedArgs ps := by
  cases ps with
  | nil =>
    unfold buildArgs expectedArgs
    simp [renderParams]
    intro h
    exact absurd rfl h
  | cons p ps' =>
    have hhead : ∀ c, (renderParams (p :: ps')).head? = some c → isPySpace c = false := by
      intro c hc
      rw [show (renderParams (p :: ps')).head? = some '<' from rfl] at hc
      injection hc with hc
      subst hc
      decide
    have hlast : lastNotWs (renderParams (p :: ps')) := by
      intro c hc
      rw [renderParams_getLast p ps'] at hc
      injection hc with hc
      subst hc
      decide
    have hne : renderParams (p :: ps') ≠ [] := by
      rw [renderParams_cons]
      simp [renderParam, paramOpenTok]
    unfold buildArgs
    rw [pyStrip_eq_self hhead hlast, if_neg hne,
      findTagBlocks_renderParams (p :: ps') hw]
    rfl

/-- Claim C1: for every input text assembled from function blocks with
delimiter-free names and parameters, separated by `<`-free surrounding
text, parse returns exactly one ToolCall per function block in the order
the blocks appear (the no-block case yielding the empty list); a block
with no parameter tags yields an empty arguments mapping; and when a
parameter name occurs more than once in one block, the mapping binds the
name to the value of its last occurrence. -/
theorem c1_parse_blocks_in_order (js : List (List Char))
    (bs : List (List Char × List (List Char × List Char)))
    (hlen : js.length = bs.length + 1)
    (hj : ∀ j ∈ js, '<' ∉ j) (hb : ∀ b ∈ bs, wfBlock b) :
    parseToolCalls (assembleCalls js bs) = bs.map expectedCall ∧
    (∀ b ∈ bs, b.2 = [] → (expectedCall b).arguments = []) ∧
    (∀ b ∈ bs, ∀ k, lookupArg (expectedCall b).arguments k =
      lastOcc (b.2.map (fun p => (pyStrip p.1, coerceParamValue (pyStrip p.2)))) k) := by
  refine ⟨?_, ?_, ?_⟩
  · unfold parseToolCalls
    rw [findTagBlocks_assemble bs js hlen hj hb, List.map_map]
    apply List.map_congr_left
    intro b hbmem
    show ToolCall.mk (pyStrip b.1) (buildArgs (renderParams b.2)) = expectedCall b
    unfold expectedCall
    rw [buildArgs_renderParams b.2 (hb b hbmem).2]
  · intro b _ hnil
    unfold expectedCall expectedArgs
    rw [hnil]
    rfl
  · intro b _ k
    unfold expectedCall
    have hfold : expectedArgs b.2 =
        (b.2.map (fun p => (pyStrip p.1, coerceParamValue (pyStrip p.2)))).foldl
          (fun d q => dictInsert d q.1 q.2) [] := by
      unfold expectedArgs
      rw [List.foldl_map]
    rw [hfold, lookupArg_foldl]
    cases lastOcc (b.2.map (fun p => (pyStrip p.1, coerceParamValue (pyStrip p.2)))) k with
    | some v => rfl
    | none => rfl

/-- Witness for C1: two junk pieces around one function block whose
parameter `x` occurs twice; the parse yields exactly that block's
expected call, and the arguments bind `x` to its last occurrence. -/
theorem c1_parse_blocks_in_order_witness :
    parseToolCalls (assembleCalls [['j'], ['k']]
        [(['f'], [(['x'], ['1']), (['x'], ['2'])])]) =
      [(['f'], [(['x'], ['1']), (['x'], ['2'])])].map expectedCall ∧
    lookupArg (expectedCall (['f'], [(['x'], ['1']), (['x'], ['2'])])).arguments ['x'] =
      lastOcc ([(['x'], ['1']), (['x'], ['2'])].map
        (fun p => (pyStrip p.1, coerceParamValue (pyStrip p.2)))) ['x'] := by
  have h := c1_parse_blocks_in_order [['j'], ['k']]
    [(['f'], [(['x'], ['1']), (['x'], ['2'])])]
    (by decide) (by decide)
    (by
      intro b hbmem
      rw [List.mem_singleton] at hbmem
      subst hbmem
      refine ⟨⟨by decide, by decide, by decide⟩, ?_⟩
      intro p hp
      rw [List.mem_cons, List.mem_singleton] at hp
      rcases hp with hq | hq <;> subst hq <;>
        exact ⟨by decide, by decide, by decide, by decide⟩)
  exact ⟨h.1, h.2.2 (['f'], [(['x'], ['1']), (['x'], ['2'])]) (by simp) ['x']⟩
